import Mathlib

/-!
Verification of the OneSource backend core (fusion ranker, policy guard,
connector-hub aggregation) against its natural-language specification.

The Python source is shallowly embedded:
* strings become `List Char` / `String`;
* Python float arithmetic is modelled exactly over `ℚ` (the scoring formulas
  only add, multiply and divide rationals); the single transcendental
  `math.log10` is threaded through as an uninterpreted parameter `l10`;
* `datetime` values are modelled as rational POSIX seconds, and the implicit
  `datetime.now(timezone.utc)` becomes an explicit `now : ℚ` argument;
* `re.sub` over the four concrete token patterns of `app/policy/guard.py`
  becomes a leftmost, non-overlapping scan-and-replace (`subst`) driven by one
  hand-compiled matcher per pattern, each returning the length of the match
  anchored at the head of the list (Python regex semantics: for these patterns
  all quantified character classes are disjoint from what follows them, so
  greedy maximal munch is exact);
* `re.search` for the time-of-day token becomes `searchTimeGo`, which threads
  the previous character through the scan so that the `\b` word boundaries of
  the pattern can be evaluated;
* the in-place snippet mutation of `guard` becomes explicit state passing
  (`redactAll` is the post-guard state of the ranked list, and the chosen
  candidate — an element of that list in the pipeline of `app/main.py` — is
  redacted the same way);
* Python dicts keyed by `doc_id`/`url` become assoc-list or function-update
  structures built in the same iteration order as the source loops.

Character classes are the ASCII fragments of Python's `\s`, `\S` and `\w`;
none of the verified properties exercise non-ASCII text.
-/

namespace OneSource

/-! ## Character classes (ASCII fragments of Python regex classes) -/

/-- ASCII fragment of Python `\s` (space, tab, newline, return, vertical tab, form feed). -/
def isSpaceChar (c : Char) : Bool :=
  c == ' ' || c == '\t' || c == '\n' || c == '\r' || c == '\x0b' || c == '\x0c'

/-- The class `[0-9A-Z]` of the AKIA pattern. -/
def isUpperAlphaNum (c : Char) : Bool := c.isUpper || c.isDigit

/-- The class `[0-9A-Za-z-]` of the xox token pattern. -/
def isXoxBody (c : Char) : Bool := c.isAlphanum || c == '-'

/-- The class `[A-Za-z0-9._-]` of the Bearer pattern. -/
def isBearerBody (c : Char) : Bool := c.isAlphanum || c == '.' || c == '_' || c == '-'

/-- ASCII fragment of Python `\w` (used for the `\b` word boundaries). -/
def isWordChar (c : Char) : Bool := c.isAlphanum || c == '_'

/-- Length of the maximal prefix whose characters all satisfy `f`
(the extent of a greedy `X*` / `X+` scan). -/
def spanLen (f : Char → Bool) : List Char → Nat
  | [] => 0
  | c :: r => if f c then spanLen f r + 1 else 0

/-! ## The four sensitive-token matchers of `app/policy/guard.py`

Each matcher decides whether the corresponding `_TOKEN_PATTERNS` regex matches
at the head of the list and returns the length of the match. For these
patterns the greedy quantified class is always disjoint from the characters
that may legally follow it inside the pattern, so no backtracking arises and
maximal munch gives exactly Python's match. -/

/-- `AKIA[0-9A-Z]{16}` anchored at the head. -/
def matchAKIA : List Char → Option Nat
  | a :: k :: i :: a2 :: rest =>
      if a = 'A' ∧ k = 'K' ∧ i = 'I' ∧ a2 = 'A' ∧
         (rest.take 16).length = 16 ∧ (rest.take 16).all isUpperAlphaNum
      then some 20 else none
  | _ => none

/-- `xox[pbar]-[0-9A-Za-z-]+` anchored at the head. -/
def matchXox : List Char → Option Nat
  | x1 :: o :: x2 :: k :: d :: rest =>
      if x1 = 'x' ∧ o = 'o' ∧ x2 = 'x' ∧ (k = 'p' ∨ k = 'b' ∨ k = 'a' ∨ k = 'r') ∧
         d = '-' ∧ 1 ≤ spanLen isXoxBody rest
      then some (5 + spanLen isXoxBody rest) else none
  | _ => none

/-- `Bearer\s+[A-Za-z0-9._-]+` anchored at the head. -/
def matchBearer : List Char → Option Nat
  | b :: e1 :: a :: r :: e2 :: r2 :: rest =>
      if b = 'B' ∧ e1 = 'e' ∧ a = 'a' ∧ r = 'r' ∧ e2 = 'e' ∧ r2 = 'r' ∧
         1 ≤ spanLen isSpaceChar rest ∧
         1 ≤ spanLen isBearerBody (rest.drop (spanLen isSpaceChar rest))
      then some (6 + spanLen isSpaceChar rest +
                 spanLen isBearerBody (rest.drop (spanLen isSpaceChar rest)))
      else none
  | _ => none

/-- The `\s*[:=]\s*\S+` tail of the password pattern; `rest` is the text after
the eight letters of `password`, the returned length includes those eight. -/
def pwTail (rest : List Char) : Option Nat :=
  let w1 := spanLen isSpaceChar rest
  match rest.drop w1 with
  | [] => none
  | sep :: r2 =>
    if sep = ':' ∨ sep = '=' then
      let w2 := spanLen isSpaceChar r2
      let b := spanLen (fun c => !(isSpaceChar c)) (r2.drop w2)
      if 1 ≤ b then some (8 + w1 + 1 + w2 + b) else none
    else none

/-- `password\s*[:=]\s*\S+` with `re.IGNORECASE`, anchored at the head. -/
def matchPassword : List Char → Option Nat
  | c1 :: c2 :: c3 :: c4 :: c5 :: c6 :: c7 :: c8 :: rest =>
      if c1.toLower = 'p' ∧ c2.toLower = 'a' ∧ c3.toLower = 's' ∧ c4.toLower = 's' ∧
         c5.toLower = 'w' ∧ c6.toLower = 'o' ∧ c7.toLower = 'r' ∧ c8.toLower = 'd'
      then pwTail rest
      else none
  | _ => none

/-- The fixed replacement text of `pat.sub("[REDACTED]", ...)`. -/
def redactMarker : List Char := "[REDACTED]".data

/-- One pass of `pat.sub`: scan left to right, replace each non-overlapping
match by the marker and resume after it. `fuel` bounds the recursion; one
character is consumed per step, so `s.length` fuel is exact. -/
def substGoF (m : List Char → Option Nat) : Nat → List Char → List Char
  | 0, s => s
  | _ + 1, [] => []
  | fuel + 1, c :: rest =>
      match m (c :: rest) with
      | some n => redactMarker ++ substGoF m fuel (rest.drop (n - 1))
      | none => c :: substGoF m fuel rest

/-- `pat.sub("[REDACTED]", s)` for the matcher `m`. -/
def subst (m : List Char → Option Nat) (s : List Char) : List Char :=
  substGoF m s.length s

/-- The body of `redact`: the four patterns applied in the order of
`_TOKEN_PATTERNS`. -/
def redactL (s : List Char) : List Char :=
  subst matchPassword (subst matchBearer (subst matchXox (subst matchAKIA s)))

/-- `redact` of `app/policy/guard.py`. -/
def redact (s : String) : String := String.mk (redactL s.data)

/-! ## The time-of-day token `\b(1[0-2]|[1-9])\s?pm\b` (re.IGNORECASE) -/

/-- The trailing `\b` of the time pattern: the next character, if any, is not
a word character. -/
def boundaryAfter : List Char → Bool
  | [] => true
  | c :: _ => !(isWordChar c)

/-- `pm\b` with no whitespace consumed by `\s?`. -/
def timeTailNoWs : List Char → Option (List Char)
  | p :: m :: r =>
      if p.toLower = 'p' ∧ m.toLower = 'm' ∧ boundaryAfter r then some [p, m] else none
  | _ => none

/-- `\s?pm\b` with the optional whitespace consumed. -/
def timeTailWs : List Char → Option (List Char)
  | w :: rest =>
      if isSpaceChar w then (timeTailNoWs rest).map (fun t => w :: t) else none
  | _ => none

/-- `\s?pm\b`; the greedy `\s?` prefers to consume a whitespace character. -/
def timeTail (rest : List Char) : Option (List Char) :=
  match timeTailWs rest with
  | some t => some t
  | none => timeTailNoWs rest

/-- The alternative `[1-9]` followed by the tail. -/
def timeAltOne : List Char → Option (List Char)
  | h :: rest =>
      if '1' ≤ h ∧ h ≤ '9' then (timeTail rest).map (fun t => h :: t) else none
  | [] => none

/-- Match of the whole time pattern at the head of `s`; `prev` is the
character immediately before `s` (none at the start of the text), used for the
leading `\b`. The regex alternation tries `1[0-2]` before `[1-9]`. -/
def matchTimeAt (prev : Option Char) (s : List Char) : Option (List Char) :=
  if (match prev with | none => true | some c => !(isWordChar c)) then
    match s with
    | c1 :: c2 :: rest =>
        if c1 = '1' ∧ '0' ≤ c2 ∧ c2 ≤ '2' then
          match timeTail rest with
          | some t => some (c1 :: c2 :: t)
          | none => timeAltOne s
        else timeAltOne s
    | _ => timeAltOne s
  else none

/-- `re.search`: the leftmost match of the time pattern, scanning with the
previous character threaded for the word boundary. -/
def searchTimeGo : Option Char → List Char → Option (List Char)
  | prev, [] => matchTimeAt prev []
  | prev, c :: r =>
    match matchTimeAt prev (c :: r) with
    | some tok => some tok
    | none => searchTimeGo (some c) r

/-- The character immediately before the current scan position: the last
character of the consumed prefix `a`, or the seed `prev` when `a` is empty. -/
def prevAt (prev : Option Char) (a : List Char) : Option Char :=
  match a.getLast? with
  | some c => some c
  | none => prev

/-- `_extract_time_token` of `app/policy/guard.py`: the matched substring
lowercased, or the empty string. -/
def extractTimeToken (text : String) : String :=
  match searchTimeGo none text.data with
  | some tok => String.mk (tok.map Char.toLower)
  | none => ""

/-! ## Strings: lowercasing and Python's `in` (substring) -/

/-- `str.lower` (ASCII fragment). -/
def lowerStr (s : String) : String := String.mk (s.data.map Char.toLower)

/-- `needle` is a leading segment of `hay`. -/
def leadsWith : List Char → List Char → Bool
  | [], _ => true
  | _ :: _, [] => false
  | a :: as_, b :: bs => a == b && leadsWith as_ bs

/-- `needle` occurs contiguously somewhere in `hay`. -/
def hasSub (needle : List Char) : List Char → Bool
  | [] => leadsWith needle []
  | b :: bs => leadsWith needle (b :: bs) || hasSub needle bs

/-- Python's `needle in hay` on strings. -/
def strIn (needle hay : String) : Bool := hasSub needle.data hay.data

/-! ## Data model: `NormalizedCandidate` of `app/schemas.py`

`signals` is an open `Dict[str, object]` in the source; the embedding keeps
exactly the keys the authority rule of `app/fusion/rank.py` reads, with the
neutral default the source's `.get` calls produce for a missing key.
`last_modified` (a timezone-aware `datetime`) is modelled as rational POSIX
seconds. -/

structure Signals where
  path_hint : String := ""
  approved_pr : Int := 0
  owner_team : Bool := false
  folder : String := ""
  pinned : Bool := false
  accepted : Bool := false
  sme_author : Bool := false
deriving DecidableEq

structure Candidate where
  source : String
  doc_id : String
  url : String
  title : String
  snippet : String
  last_modified : ℚ
  owner : String := ""
  signals : Signals := {}
  score_hint : ℚ := 0
deriving DecidableEq

/-! ## Fusion ranker (`app/fusion/rank.py`)

Scores are Python floats in the source; the formulas only add, multiply and
divide, so they are modelled exactly over `ℚ`. `math.log10` is the single
transcendental; it is threaded through as an uninterpreted parameter
`l10 : ℚ → ℚ`, and `datetime.now(timezone.utc)` as an explicit `now : ℚ`. -/

/-- `_freshness_score`: `1 / (1 + age_days/7)` with
`age_days = max(0, (now - dt)/86400)`. -/
def freshnessScore (now dt : ℚ) : ℚ :=
  1 / (1 + (max 0 ((now - dt) / 86400)) / 7)

/-- `_authority_score`. -/
def authorityScore (l10 : ℚ → ℚ) (c : Candidate) : ℚ :=
  if c.source = "github" then
    (if strIn "/docs" c.signals.path_hint ∨ strIn "wiki" c.signals.path_hint
     then (0.25 : ℚ) else 0) +
    min (0.5 : ℚ) (0.2 * l10 (1 + ((max 0 c.signals.approved_pr : ℤ) : ℚ)))
  else if c.source = "drive" then
    (if c.signals.owner_team then (0.25 : ℚ) else 0) +
    (if c.signals.folder = "Runbooks" then (0.15 : ℚ) else 0)
  else if c.source = "slack" then
    (if c.signals.pinned then (0.25 : ℚ) else 0) +
    (if c.signals.accepted then (0.2 : ℚ) else 0) +
    (if c.signals.sme_author then (0.1 : ℚ) else 0)
  else 0

/-- `_specificity_score`: `0.15*title_hit + 0.05*body_hit`. -/
def specificityScore (c : Candidate) (query : String) : ℚ :=
  let q := lowerStr query
  0.15 * (if strIn q (lowerStr c.title) then (1 : ℚ) else 0) +
  0.05 * (if strIn q (lowerStr c.snippet) then (1 : ℚ) else 0)

/-- `score_candidate`: `0.5*fresh + 0.4*auth + 0.2*spec`. -/
def scoreCandidate (l10 : ℚ → ℚ) (now : ℚ) (c : Candidate) (query : String) : ℚ :=
  0.5 * freshnessScore now c.last_modified +
  0.4 * authorityScore l10 c +
  0.2 * specificityScore c query

/-- Two-decimal rendering of a score, modelling the `:.2f` format of the
reason strings (up to the binary-float rounding detail of `%.2f`, which no
verified property depends on). -/
def fmt2 (q : ℚ) : String :=
  let n : Int := Int.floor (q * 100 + 1/2)
  let a := n.natAbs
  (if n < 0 then "-" else "") ++ toString (a / 100) ++ "." ++
    (if a % 100 < 10 then "0" else "") ++ toString (a % 100)

/-- The three reason lines `rank` records for a candidate before the
consensus pass. -/
def baseReasons (l10 : ℚ → ℚ) (now : ℚ) (query : String) (c : Candidate) : List String :=
  ["fresh=" ++ fmt2 (freshnessScore now c.last_modified),
   "auth=" ++ fmt2 (authorityScore l10 c),
   "spec=" ++ fmt2 (specificityScore c query)]

/-- Pointwise update of a map, the effect of `d[k] = v` on a Python dict
viewed as a total function. -/
def updFn {α : Type} (f : String → α) (k : String) (v : α) : String → α :=
  fun x => if x = k then v else f x

/-- The dict-building loop of `rank`: one `d[c.doc_id] = val c` per candidate,
in input order. -/
def buildMap {α : Type} (d : α) (val : Candidate → α) (cs : List Candidate) : String → α :=
  cs.foldl (fun f c => updFn f c.doc_id (val c)) (fun _ => d)

/-- One step of `by_url.setdefault(c.url, []).append(c.doc_id)`. -/
def addUrl (acc : List (String × List String)) (c : Candidate) : List (String × List String) :=
  if acc.any (fun e => e.1 == c.url) then
    acc.map (fun e => if e.1 = c.url then (e.1, e.2 ++ [c.doc_id]) else e)
  else acc ++ [(c.url, [c.doc_id])]

/-- The `by_url` grouping dict of `rank`, in first-encounter key order. -/
def groupByUrl (cs : List Candidate) : List (String × List String) :=
  cs.foldl addUrl []

/-- The doc ids of the candidates with the given url, in input order (the
contents of one `by_url` group). -/
def urlIds (u : String) (cs : List Candidate) : List String :=
  (cs.filter (fun d => d.url == u)).map (fun d => d.doc_id)

/-- The consensus pass of `rank`, generic in the per-id update so that the
same loop serves the score bump (`+= 0.05`) and the reason append. -/
def consensusFold {α : Type} (upd : α → α) (groups : List (String × List String))
    (f : String → α) : String → α :=
  groups.foldl
    (fun g e =>
      if 2 ≤ e.2.length then e.2.foldl (fun h did => updFn h did (upd (h did))) g else g)
    f

/-- Python's `max(xs, key=f)`: the first element attaining the maximum.
`best` is the current best, seeded with the first element. -/
def pyMaxBy (f : Candidate → ℚ) (best : Candidate) : List Candidate → Candidate
  | [] => best
  | c :: rest => pyMaxBy f (if f best < f c then c else best) rest

/-- The scores dict of `rank` after the consensus pass: the per-candidate
base scores keyed by doc id, then `+= 0.05` for every id in every URL group
of size ≥ 2. -/
def rankScores (l10 : ℚ → ℚ) (now : ℚ) (candidates : List Candidate) (query : String) :
    String → ℚ :=
  consensusFold (fun v => v + 0.05) (groupByUrl candidates)
    (buildMap 0 (fun c => scoreCandidate l10 now c query) candidates)

/-- The reasons dict of `rank` after the consensus pass. -/
def rankReasons (l10 : ℚ → ℚ) (now : ℚ) (candidates : List Candidate) (query : String) :
    String → List String :=
  consensusFold (fun r => r ++ ["consensus=+0.05"]) (groupByUrl candidates)
    (buildMap [] (baseReasons l10 now query) candidates)

/-- `rank` of `app/fusion/rank.py`. `none` models the `ValueError` Python's
`max` raises on an empty sequence. -/
def rank (l10 : ℚ → ℚ) (now : ℚ) (candidates : List Candidate) (query : String) :
    Option (Candidate × (String → ℚ) × (String → List String)) :=
  match candidates with
  | [] => none
  | c0 :: rest =>
    some (pyMaxBy (fun c => rankScores l10 now (c0 :: rest) query c.doc_id) c0 rest,
          rankScores l10 now (c0 :: rest) query,
          rankReasons l10 now (c0 :: rest) query)

/-! ## Policy guard (`app/policy/guard.py`)

`guard` mutates the snippets of the ranked candidates in place; the embedding
passes that state explicitly: `redactAll ranked` is the post-guard state of
the ranked list, and the chosen candidate — which in the pipeline of
`app/main.py` is an element of `ranked`, so its snippet is redacted by the
same in-place loop — is redacted by `redactCand`. -/

/-- A candidate with its snippet redacted (the in-place `c.snippet = after`). -/
def redactCand (c : Candidate) : Candidate := { c with snippet := redact c.snippet }

/-- Post-guard state of the ranked list. -/
def redactAll (ranked : List Candidate) : List Candidate := ranked.map redactCand

/-- The `redactions` list: doc ids of candidates whose snippet changed, in
scan order. -/
def redactionList (ranked : List Candidate) : List String :=
  (ranked.filter (fun c => redact c.snippet != c.snippet)).map (fun c => c.doc_id)

/-- The fallback scan of `guard` when the chosen snippet has no time token:
walk the `(candidate, token)` pairs, remembering the first candidate for each
token in `seen`; on the first repeated token pick that candidate (or, were it
the chosen one, the remembered first holder) as contradictor. -/
def findDup (chosenId : String) :
    List (Candidate × String) → List (String × Candidate) → Option Candidate
  | [], _ => none
  | (c, t) :: rest, seen =>
    match seen.find? (fun e => e.1 == t) with
    | some e => some (if c.doc_id ≠ chosenId then c else e.2)
    | none => findDup chosenId rest (seen ++ [(t, c)])

/-- The contradictor search of `guard`, on the already-redacted candidates. -/
def findContradictor (chosen2 : Candidate) (ranked2 : List Candidate) : Option Candidate :=
  let chosenTime := extractTimeToken chosen2.snippet
  if chosenTime ≠ "" then
    ranked2.find? (fun c =>
      c.doc_id != chosen2.doc_id &&
      extractTimeToken c.snippet != "" &&
      extractTimeToken c.snippet != chosenTime)
  else
    findDup chosen2.doc_id
      ((ranked2.map (fun c => (c, extractTimeToken c.snippet))).filter (fun p => p.2 != ""))
      []

set_option linter.unusedVariables false in
/-- `guard` of `app/policy/guard.py`:
returns `(sanitized_chosen, redactions, conflict, policy_banner_or_empty)`.
The `scores_by_id` argument is accepted, as in the source, and never read. -/
def guard (chosen : Candidate) (ranked : List Candidate)
    (scores_by_id : Option (String → ℚ)) : Candidate × List String × Bool × String :=
  let ranked2 := redactAll ranked
  let chosen2 := redactCand chosen
  let reds := redactionList ranked
  match findContradictor chosen2 ranked2 with
  | some ct =>
      (chosen2, reds, true,
       "Sources conflict (" ++ chosen.source ++ " vs " ++ ct.source ++ "). Chose " ++
         chosen.source ++ " (higher score).")
  | none => (chosen2, reds, false, "")

/-! ## Connector hub (`app/connectorhub/__init__.py`)

A provider's raw output is a Python list of arbitrary objects. The embedding
keeps the three shapes the aggregator distinguishes: a well-typed
`NormalizedCandidate`, a dict (with the facts `_coerce_candidates` and the
rate-limit check read off it: truthiness of `"rate_limited"`, presence of the
three identity keys, and whether `NormalizedCandidate(**item)` validates,
yielding `construct`), and anything else. Timing, timeout and error handling
are wall-clock/concurrency behaviour outside the embedding; the `timeout` and
`error` fields are carried for shape only. -/

structure PyDict where
  rateLimitedTruthy : Bool
  hasSource : Bool
  hasUrl : Bool
  hasDocId : Bool
  construct : Option Candidate
deriving DecidableEq

inductive RawItem where
  | cand (c : Candidate)
  | dict (d : PyDict)
  | other
deriving DecidableEq

/-- The reserved rate-limit sentinel `{"rate_limited": 1}`: a dict with only
that key, hence no identity keys and no successful coercion. -/
def rlSentinel : RawItem :=
  RawItem.dict { rateLimitedTruthy := true, hasSource := false, hasUrl := false,
                 hasDocId := false, construct := none }

/-- The check `isinstance(res, list) and len(res) == 1 and isinstance(res[0], dict)
and res[0].get("rate_limited")`. -/
def isRLSignal : List RawItem → Bool
  | [RawItem.dict d] => d.rateLimitedTruthy
  | _ => false

/-- `_coerce_candidates`: keep typed candidates; coerce dicts that carry the
three identity keys and validate; drop (with a logged warning) everything
else. -/
def coerceCandidates : List RawItem → List Candidate
  | [] => []
  | RawItem.cand c :: rest => c :: coerceCandidates rest
  | RawItem.dict d :: rest =>
      if d.hasSource && d.hasUrl && d.hasDocId then
        match d.construct with
        | some c => c :: coerceCandidates rest
        | none => coerceCandidates rest
      else coerceCandidates rest
  | RawItem.other :: rest => coerceCandidates rest

structure ProviderInfo where
  timeout : Nat := 0
  error : String := ""
  rate_limited : Nat := 0
  count : Nat := 0
deriving DecidableEq

/-- The per-provider body of `gather_candidates`' `runner` (successful path)
followed by the merge-loop bookkeeping: the sentinel check empties the result
and sets `rate_limited`, then the survivors are coerced and counted. -/
def processProvider (raw : List RawItem) : List Candidate × ProviderInfo :=
  if isRLSignal raw then
    ([], { rate_limited := 1, count := 0 })
  else
    let cs := coerceCandidates raw
    (cs, { rate_limited := 0, count := cs.length })

/-- `gather_candidates` over the providers' (name, raw output) pairs, in task
order: merged candidates in order, plus the per-provider diagnostics. -/
def gatherCandidates (providers : List (String × List RawItem)) :
    List Candidate × List (String × ProviderInfo) :=
  ((providers.map (fun p => (processProvider p.2).1)).flatten,
   providers.map (fun p => (p.1, (processProvider p.2).2)))

/-! ## Claim-side definitions (written from the spec's words, for comparison) -/

/-- Claim side (C2): freshness `1/(1 + ageDays/7)` with `ageDays` the elapsed
days since `lastModified`, clamped to be ≥ 0. -/
def claimFreshness (now dt : ℚ) : ℚ :=
  let ageDays := max 0 ((now - dt) / 86400)
  1 / (1 + ageDays / 7)

/-- Claim side (C2): specificity adds 0.15 if the lowercase query is a
substring of the lowercase title and, independently, 0.05 if it is a
substring of the lowercase snippet. -/
def claimSpecificity (c : Candidate) (query : String) : ℚ :=
  (if strIn (lowerStr query) (lowerStr c.title) then (0.15 : ℚ) else 0) +
  (if strIn (lowerStr query) (lowerStr c.snippet) then (0.05 : ℚ) else 0)

/-- Claim side (C8): `pm` (case-insensitive) starts here. -/
def pmLeads : List Char → Bool
  | p :: m :: _ => p.toLower == 'p' && m.toLower == 'm'
  | _ => false

/-- Claim side (C8): an hour 1–12 immediately followed by `pm` starts at this
position. -/
def claimHourPmAt : List Char → Bool
  | [] => false
  | c :: rest =>
      (decide ('1' ≤ c) && decide (c ≤ '9') && pmLeads rest) ||
      (c == '1' &&
        match rest with
        | c2 :: rest2 => decide ('0' ≤ c2) && decide (c2 ≤ '2') && pmLeads rest2
        | [] => false)

/-- Some suffix position satisfies `f`. -/
def anySuffix (f : List Char → Bool) : List Char → Bool
  | [] => f []
  | b :: bs => f (b :: bs) || anySuffix f bs

/-- Claim side (C8): the text contains an hour 1–12 immediately followed by
`pm` (case-insensitive), with no intervening character. -/
def claimContainsHourPm (t : String) : Bool := anySuffix claimHourPmAt t.data

/-- A raw item produces this candidate in `_coerce_candidates`. -/
def yields : RawItem → Candidate → Prop
  | RawItem.cand c0, c => c0 = c
  | RawItem.dict d, c => d.hasSource ∧ d.hasUrl ∧ d.hasDocId ∧ d.construct = some c
  | RawItem.other, _ => False

/-! ## Concrete example inputs for witnesses and counterexamples -/

def exSlack : Candidate :=
  { source := "slack", doc_id := "s1", url := "https://s/1", title := "deploy window",
    snippet := "meet at 3pm", last_modified := 0 }

def exDrive : Candidate :=
  { source := "drive", doc_id := "d1", url := "https://d/1", title := "runbook",
    snippet := "window is at 4pm", last_modified := -604800 }

def exGit : Candidate :=
  { source := "github", doc_id := "g1", url := "https://g/1", title := "notes",
    snippet := "try 4 pm instead", last_modified := 0 }

def exPlain : Candidate :=
  { source := "slack", doc_id := "w0", url := "https://s/w", title := "no times",
    snippet := "nothing timed here", last_modified := 0 }

def exSecret : Candidate :=
  { source := "drive", doc_id := "k1", url := "https://d/k", title := "creds",
    snippet := "key AKIA1234567890123456 ok", last_modified := 0 }

def exDup : Candidate :=
  { source := "github", doc_id := "g3", url := "https://g/3", title := "dup time",
    snippet := "also 3pm works", last_modified := 0 }

def exTwin : Candidate :=
  { source := "github", doc_id := "g2", url := "https://s/1", title := "same link",
    snippet := "duplicate pointer", last_modified := 0 }

/-- A concrete stand-in for the uninterpreted `math.log10` parameter. -/
def l10zero : ℚ → ℚ := fun _ => 0

/-! ## Matching predicates and the substitution relation (for the redaction
proofs) -/

/-- No position of `s` (viewed as suffixes) matches `m`. -/
def noMatch (m : List Char → Option Nat) : List Char → Prop
  | [] => m [] = none
  | c :: rest => m (c :: rest) = none ∧ noMatch m rest

/-- No position strictly inside the prefix `p` (each suffix of `p` continued
by `y`) matches `m`. -/
def noMatchOn (m : List Char → Option Nat) : List Char → List Char → Prop
  | [], _ => True
  | c :: rest, y => m ((c :: rest) ++ y) = none ∧ noMatchOn m rest y

/-- The graph of one `pat.sub` pass: `SubRel m s r` holds when `r` is
obtained from `s` by the left-to-right, non-overlapping scan that copies a
character when `m` fails at it and otherwise emits the marker and resumes
after the match. -/
inductive SubRel (m : List Char → Option Nat) : List Char → List Char → Prop where
  | nil : SubRel m [] []
  | copy : ∀ (c : Char) (s r : List Char),
      m (c :: s) = none → SubRel m s r → SubRel m (c :: s) (c :: r)
  | repl : ∀ (s r : List Char) (n : Nat),
      m s = some n → SubRel m (s.drop n) r → SubRel m s (redactMarker ++ r)

/-- The facts about one token matcher that the idempotence argument uses:
it fails on the empty text, consumes at least one character, every match
starts with a non-whitespace character, it never matches at any position
inside the replacement marker, and a match crossing a marker can be
re-targeted when the marker is replaced by any text starting with a
non-whitespace character. -/
structure MatcherOK (m : List Char → Option Nat) : Prop where
  nilNone : m [] = none
  pos : ∀ {s : List Char} {n : Nat}, m s = some n → 1 ≤ n
  headNonSpace : ∀ {s : List Char} {n : Nat}, m s = some n →
    ∃ c t, s = c :: t ∧ isSpaceChar c = false
  immune : ∀ y : List Char, noMatchOn m redactMarker y
  transfer : ∀ (p y : List Char) (c : Char) (z : List Char), isSpaceChar c = false →
    m (p ++ redactMarker ++ y) ≠ none → m (p ++ c :: z) ≠ none

/-! # Theorems -/

/-! ## C10: `guard` is independent of the scores mapping -/

/-- C10: for every winner, ranked list and any two values of the
`scores_by_id` argument (including `none`), `guard` returns identical
results — winner, redaction list, conflict flag and banner do not depend on
the scores mapping. -/
theorem C10_guard_ignores_scores (chosen : Candidate) (ranked : List Candidate)
    (s1 s2 : Option (String → ℚ)) :
    guard chosen ranked s1 = guard chosen ranked s2 := rfl

/-! ## C2: the base-score formula -/

/-- C2: the base score of `score_candidate` is
`0.5*freshness + 0.4*authority + 0.2*specificity`, with freshness
`1/(1 + ageDays/7)` for the clamped elapsed age and specificity adding 0.15
for a lowercase-query/title substring hit and independently 0.05 for a
snippet hit. -/
theorem C2_score_formula (l10 : ℚ → ℚ) (now : ℚ) (c : Candidate) (query : String) :
    scoreCandidate l10 now c query =
      0.5 * claimFreshness now c.last_modified +
      0.4 * authorityScore l10 c +
      0.2 * claimSpecificity c query := by
  have hfresh : freshnessScore now c.last_modified = claimFreshness now c.last_modified := rfl
  have hspec : specificityScore c query = claimSpecificity c query := by
    unfold specificityScore claimSpecificity
    cases hT : strIn (lowerStr query) (lowerStr c.title) <;>
      cases hS : strIn (lowerStr query) (lowerStr c.snippet) <;>
        simp [hT, hS]
  unfold scoreCandidate
  rw [hfresh, hspec]

/-! ## C7: freshness monotonicity (corrected: clamping ties future dates) -/

/-- C7 counterexample: with reference time 0, the timestamps 100 and 200 are
both in the future; 200 is strictly more recent than 100, yet the freshness
component is 1 for both (the age clamp), so it is not strictly higher. -/
theorem C7_counterexample :
    (100 : ℚ) < 200 ∧ ¬ freshnessScore 0 100 < freshnessScore 0 200 := by
  constructor
  · norm_num
  · have h1 : freshnessScore 0 100 = 1 := by
      unfold freshnessScore
      norm_num
    have h2 : freshnessScore 0 200 = 1 := by
      unfold freshnessScore
      norm_num
    rw [h1, h2]
    exact lt_irrefl 1

/-- C7 (amended): for two candidates identical except `lastModified`,
evaluated at the same reference time, the strictly more recent one has a
strictly higher freshness component, provided the older timestamp lies
strictly before the reference time (two timestamps at or after the reference
time are both clamped to age 0 and tie at freshness 1). -/
theorem C7_freshness_monotone (now d1 d2 : ℚ) (h12 : d1 < d2) (hpast : d1 < now) :
    freshnessScore now d1 < freshnessScore now d2 := by
  unfold freshnessScore
  have hq1 : (0 : ℚ) < (now - d1) / 86400 := by
    have : (0 : ℚ) < now - d1 := by linarith
    positivity
  have ha21 : max 0 ((now - d2) / 86400) < max 0 ((now - d1) / 86400) := by
    rw [max_eq_right hq1.le]
    rcases le_or_lt ((now - d2) / 86400) 0 with h | h
    · rw [max_eq_left h]
      exact hq1
    · rw [max_eq_right h.le]
      exact (div_lt_div_right (by norm_num : (0 : ℚ) < 86400)).mpr (by linarith)
  have hpos : (0 : ℚ) < 1 + max 0 ((now - d2) / 86400) / 7 := by
    have : (0 : ℚ) ≤ max 0 ((now - d2) / 86400) := le_max_left 0 _
    linarith
  have hlt : 1 + max 0 ((now - d2) / 86400) / 7 < 1 + max 0 ((now - d1) / 86400) / 7 := by
    have := (div_lt_div_right (by norm_num : (0 : ℚ) < 7)).mpr ha21
    linarith
  exact one_div_lt_one_div_of_lt hpos hlt

/-- C7 witness: timestamps 1 < 2 with reference time 3 (the older one in the
strict past) give strictly increasing freshness. -/
theorem C7_witness :
    (1 : ℚ) < 2 ∧ (1 : ℚ) < 3 ∧ freshnessScore 3 1 < freshnessScore 3 2 :=
  ⟨by norm_num, by norm_num, C7_freshness_monotone 3 1 2 (by norm_num) (by norm_num)⟩

/-! ## C9: the rate-limit sentinel (corrected: only detected when alone) -/

/-- Every candidate produced by `_coerce_candidates` comes from some raw item
that yields it. -/
theorem coerce_mem {raw : List RawItem} {c : Candidate}
    (h : c ∈ coerceCandidates raw) : ∃ i ∈ raw, yields i c := by
  induction raw with
  | nil => simp [coerceCandidates] at h
  | cons i rest ih =>
    rcases i with c0 | d
    · have h' : c = c0 ∨ c ∈ coerceCandidates rest := by
        simpa [coerceCandidates] using h
      rcases h' with h' | h'
      · exact ⟨RawItem.cand c0, List.mem_cons_self _ _, h'.symm⟩
      · obtain ⟨j, hj, hy⟩ := ih h'
        exact ⟨j, List.mem_cons_of_mem _ hj, hy⟩
    · have hunf : coerceCandidates (RawItem.dict d :: rest)
          = if d.hasSource && d.hasUrl && d.hasDocId then
              (match d.construct with
               | some c0 => c0 :: coerceCandidates rest
               | none => coerceCandidates rest)
            else coerceCandidates rest := rfl
      rw [hunf] at h
      by_cases hk : (d.hasSource && d.hasUrl && d.hasDocId) = true
      · rw [if_pos hk] at h
        cases hc : d.construct with
        | some c0 =>
          rw [hc] at h
          rcases List.mem_cons.mp h with h' | h'
          · refine ⟨RawItem.dict d, List.mem_cons_self _ _, ?_⟩
            simp only [Bool.and_eq_true] at hk
            exact ⟨hk.1.1, hk.1.2, hk.2, by rw [hc, h']⟩
          · obtain ⟨j, hj, hy⟩ := ih h'
            exact ⟨j, List.mem_cons_of_mem _ hj, hy⟩
        | none =>
          rw [hc] at h
          obtain ⟨j, hj, hy⟩ := ih h
          exact ⟨j, List.mem_cons_of_mem _ hj, hy⟩
      · rw [if_neg hk] at h
        obtain ⟨j, hj, hy⟩ := ih h
        exact ⟨j, List.mem_cons_of_mem _ hj, hy⟩
    · have hunf : coerceCandidates (RawItem.other :: rest) = coerceCandidates rest := rfl
      rw [hunf] at h
      obtain ⟨j, hj, hy⟩ := ih h
      exact ⟨j, List.mem_cons_of_mem _ hj, hy⟩

/-- The sentinel yields no candidate. -/
theorem yields_rlSentinel_false (c : Candidate) : ¬ yields rlSentinel c := by
  simp [yields, rlSentinel]

/-- C9 counterexample: a provider whose raw output contains the rate-limit
sentinel alongside a genuine candidate does **not** get its `rate_limited`
flag set (the source only checks a single-element result list). -/
theorem C9_counterexample :
    rlSentinel ∈ [rlSentinel, RawItem.cand exSlack] ∧
    (processProvider [rlSentinel, RawItem.cand exSlack]).2.rate_limited = 0 ∧
    (gatherCandidates [("slack", [rlSentinel, RawItem.cand exSlack])]).1 = [exSlack] := by
  refine ⟨List.mem_cons_self _ _, ?_, ?_⟩ <;> decide

/-- C9 (amended): the provider's `rate_limited` flag is set exactly when the
raw output is the single-element sentinel list (`isRLSignal`); whether or not
the flag is set, the sentinel entry itself never appears among the candidates
`gather_candidates` passes downstream — every surviving candidate comes from
a non-sentinel raw item. -/
theorem C9_rate_limit_sentinel (raw : List RawItem) (h : rlSentinel ∈ raw) :
    (processProvider raw).2.rate_limited = (if isRLSignal raw then 1 else 0) ∧
    ∀ c ∈ (processProvider raw).1, ∃ i ∈ raw, i ≠ rlSentinel ∧ yields i c := by
  constructor
  · unfold processProvider
    split <;> simp_all
  · intro c hc
    unfold processProvider at hc
    by_cases hrl : isRLSignal raw = true
    · rw [if_pos hrl] at hc
      simp at hc
    · rw [if_neg hrl] at hc
      obtain ⟨i, hi, hy⟩ := coerce_mem hc
      refine ⟨i, hi, ?_, hy⟩
      rintro rfl
      exact yields_rlSentinel_false c hy

/-! ## C1: the winner maximizes the post-consensus total, first-of-ties -/

/-- Python's `max(xs, key=f)` seeded with `best`: the result splits the input
as `l1 ++ result :: l2` where every element is `≤` the result and everything
strictly before it is strictly below it (so the result is the first element
attaining the maximum). -/
theorem pyMaxBy_spec (f : Candidate → ℚ) :
    ∀ (l : List Candidate) (best : Candidate),
      ∃ l1 l2, best :: l = l1 ++ pyMaxBy f best l :: l2 ∧
        (∀ c ∈ best :: l, f c ≤ f (pyMaxBy f best l)) ∧
        (∀ c ∈ l1, f c < f (pyMaxBy f best l)) := by
  intro l
  induction l with
  | nil =>
    intro best
    refine ⟨[], [], rfl, ?_, by simp⟩
    intro c hc
    rw [List.mem_singleton.mp hc]
    exact le_refl _
  | cons c rest ih =>
    intro best
    by_cases hlt : f best < f c
    · obtain ⟨l1, l2, hsplit, hmax, hless⟩ := ih c
      have hred : pyMaxBy f best (c :: rest) = pyMaxBy f c rest := by
        simp [pyMaxBy, if_pos hlt]
      refine ⟨best :: l1, l2, ?_, ?_, ?_⟩
      · rw [hred, List.cons_append, ← hsplit]
      · intro x hx
        rw [hred]
        rcases List.mem_cons.mp hx with h | h
        · subst h
          exact le_of_lt (lt_of_lt_of_le hlt (hmax c (List.mem_cons_self _ _)))
        · exact hmax x h
      · intro x hx
        rw [hred]
        rcases List.mem_cons.mp hx with h | h
        · subst h
          exact lt_of_lt_of_le hlt (hmax c (List.mem_cons_self _ _))
        · exact hless x h
    · obtain ⟨l1, l2, hsplit, hmax, hless⟩ := ih best
      have hred : pyMaxBy f best (c :: rest) = pyMaxBy f best rest := by
        simp [pyMaxBy, if_neg hlt]
      have hcle : f c ≤ f best := le_of_not_lt hlt
      have hble : f best ≤ f (pyMaxBy f best rest) :=
        hmax best (List.mem_cons_self _ _)
      cases l1 with
      | nil =>
        have hbest : best = pyMaxBy f best rest := by
          simpa using congrArg (fun t => t.headD best) hsplit
        refine ⟨[], c :: rest, ?_, ?_, by simp⟩
        · rw [hred, ← hbest]
          rfl
        · intro x hx
          rw [hred, ← hbest]
          rcases List.mem_cons.mp hx with h | h
          · subst h; exact le_refl _
          · rcases List.mem_cons.mp h with h | h
            · subst h; exact hcle
            · rw [hbest]
              exact hmax x (List.mem_cons_of_mem _ h)
      | cons b l1' =>
        have hb : b = best := by
          have := congrArg (fun t => t.headD best) hsplit
          simpa using this.symm
        have hrest : rest = l1' ++ pyMaxBy f best rest :: l2 := by
          have := congrArg List.tail hsplit
          simpa using this
        refine ⟨best :: c :: l1', l2, ?_, ?_, ?_⟩
        · rw [hred]
          simp only [List.cons_append]
          rw [← hrest]
        · intro x hx
          rw [hred]
          rcases List.mem_cons.mp hx with h | h
          · subst h; exact hble
          · rcases List.mem_cons.mp h with h | h
            · subst h; exact le_trans hcle hble
            · exact hmax x (List.mem_cons_of_mem _ h)
        · intro x hx
          rw [hred]
          have hbestlt : f best < f (pyMaxBy f best rest) := by
            have := hless b (List.mem_cons_self _ _)
            rwa [hb] at this
          rcases List.mem_cons.mp hx with h | h
          · subst h; exact hbestlt
          · rcases List.mem_cons.mp h with h | h
            · subst h; exact lt_of_le_of_lt hcle hbestlt
            · exact hless x (List.mem_cons_of_mem _ h)

/-- C1: on a non-empty candidate list with distinct doc ids, `rank` returns a
winner whose post-consensus total is ≥ every candidate's total, and the
winner is the first candidate (in input order) attaining that maximum. -/
theorem C1_rank_winner (l10 : ℚ → ℚ) (now : ℚ) (candidates : List Candidate)
    (query : String) (hne : candidates ≠ [])
    (hnd : (candidates.map (fun c => c.doc_id)).Nodup) :
    ∃ chosen l1 l2,
      rank l10 now candidates query =
        some (chosen, rankScores l10 now candidates query,
              rankReasons l10 now candidates query) ∧
      (∀ c ∈ candidates,
        rankScores l10 now candidates query c.doc_id ≤
          rankScores l10 now candidates query chosen.doc_id) ∧
      candidates = l1 ++ chosen :: l2 ∧
      (∀ c ∈ l1,
        rankScores l10 now candidates query c.doc_id <
          rankScores l10 now candidates query chosen.doc_id) := by
  obtain ⟨c0, rest, rfl⟩ := List.exists_cons_of_ne_nil hne
  obtain ⟨l1, l2, hsplit, hmax, hless⟩ :=
    pyMaxBy_spec (fun c => rankScores l10 now (c0 :: rest) query c.doc_id) rest c0
  exact ⟨_, l1, l2, rfl, hmax, hsplit, hless⟩

/-- C1 witness: the theorem applied to a concrete two-candidate list. -/
theorem C1_witness :
    ([exSlack, exDrive] ≠ [] ∧ ([exSlack, exDrive].map (fun c => c.doc_id)).Nodup) ∧
    ∃ chosen l1 l2,
      rank l10zero 0 [exSlack, exDrive] "deploy" =
        some (chosen, rankScores l10zero 0 [exSlack, exDrive] "deploy",
              rankReasons l10zero 0 [exSlack, exDrive] "deploy") ∧
      (∀ c ∈ [exSlack, exDrive],
        rankScores l10zero 0 [exSlack, exDrive] "deploy" c.doc_id ≤
          rankScores l10zero 0 [exSlack, exDrive] "deploy" chosen.doc_id) ∧
      [exSlack, exDrive] = l1 ++ chosen :: l2 ∧
      (∀ c ∈ l1,
        rankScores l10zero 0 [exSlack, exDrive] "deploy" c.doc_id <
          rankScores l10zero 0 [exSlack, exDrive] "deploy" chosen.doc_id) :=
  ⟨⟨by decide, by decide⟩,
   C1_rank_winner l10zero 0 [exSlack, exDrive] "deploy" (by decide) (by decide)⟩

/-! ## C3: the consensus bonus, characterized per candidate -/

theorem updFn_self {α : Type} (f : String → α) (k : String) (v : α) : updFn f k v k = v := by
  simp [updFn]

theorem updFn_ne {α : Type} (f : String → α) {x k : String} (h : x ≠ k) (v : α) :
    updFn f k v x = f x := by
  simp [updFn, h]

/-- The dict-building loop does not touch keys outside the candidates' ids. -/
theorem buildFold_not_mem {α : Type} (val : Candidate → α) :
    ∀ (cs : List Candidate) (f : String → α) (x : String),
      x ∉ cs.map (fun c => c.doc_id) →
      cs.foldl (fun g c => updFn g c.doc_id (val c)) f x = f x := by
  intro cs
  induction cs with
  | nil => intro f x _; rfl
  | cons a tl ih =>
    intro f x hx
    simp only [List.map_cons, List.mem_cons, not_or] at hx
    rw [List.foldl_cons, ih _ x hx.2, updFn_ne f hx.1]

/-- With distinct ids, the dict-building loop stores `val c` at `c.doc_id`. -/
theorem buildFold_eval {α : Type} (val : Candidate → α) :
    ∀ (cs : List Candidate) (f : String → α) {c : Candidate},
      (cs.map (fun c => c.doc_id)).Nodup → c ∈ cs →
      cs.foldl (fun g c' => updFn g c'.doc_id (val c')) f c.doc_id = val c := by
  intro cs
  induction cs with
  | nil => intro f c _ hm; simp at hm
  | cons a tl ih =>
    intro f c hnd hm
    simp only [List.map_cons, List.nodup_cons] at hnd
    rcases List.mem_cons.mp hm with h | h
    · subst h
      rw [List.foldl_cons, buildFold_not_mem val tl _ _ hnd.1, updFn_self]
    · rw [List.foldl_cons]
      exact ih _ hnd.2 h

theorem buildMap_eval {α : Type} (d : α) (val : Candidate → α) (cs : List Candidate)
    {c : Candidate} (hnd : (cs.map (fun c => c.doc_id)).Nodup) (hm : c ∈ cs) :
    buildMap d val cs c.doc_id = val c :=
  buildFold_eval val cs _ hnd hm

/-- The per-group bump loop does not touch ids outside the group. -/
theorem bumpFold_not_mem {α : Type} (upd : α → α) :
    ∀ (ids : List String) (f : String → α) (x : String), x ∉ ids →
      ids.foldl (fun h did => updFn h did (upd (h did))) f x = f x := by
  intro ids
  induction ids with
  | nil => intro f x _; rfl
  | cons j tl ih =>
    intro f x hx
    simp only [List.mem_cons, not_or] at hx
    rw [List.foldl_cons, ih _ x hx.2, updFn_ne f hx.1]

/-- The per-group bump loop applies `upd` exactly once to an id that occurs
once in the group. -/
theorem bumpFold_once {α : Type} (upd : α → α) :
    ∀ (ids : List String) (f : String → α) {x : String}, ids.Nodup → x ∈ ids →
      ids.foldl (fun h did => updFn h did (upd (h did))) f x = upd (f x) := by
  intro ids
  induction ids with
  | nil => intro f x _ hm; simp at hm
  | cons j tl ih =>
    intro f x hnd hm
    simp only [List.nodup_cons] at hnd
    rcases List.mem_cons.mp hm with h | h
    · subst h
      rw [List.foldl_cons, bumpFold_not_mem upd tl _ _ hnd.1, updFn_self]
    · have hxj : x ≠ j := fun hxj => hnd.1 (hxj ▸ h)
      rw [List.foldl_cons, ih _ hnd.2 h, updFn_ne f hxj]

/-- The consensus pass leaves an id untouched when no group contains it. -/
theorem consFold_skip {α : Type} (upd : α → α) :
    ∀ (gs : List (String × List String)) (f : String → α) (x : String),
      (∀ e ∈ gs, x ∉ e.2) → consensusFold upd gs f x = f x := by
  intro gs
  induction gs with
  | nil => intro f x _; rfl
  | cons e gs' ih =>
    intro f x hx
    have hstep :
        (if 2 ≤ e.2.length then e.2.foldl (fun h did => updFn h did (upd (h did))) f else f) x
          = f x := by
      split
      · exact bumpFold_not_mem upd e.2 f x (hx e (List.mem_cons_self _ _))
      · rfl
    unfold consensusFold
    rw [List.foldl_cons]
    have := ih (if 2 ≤ e.2.length then e.2.foldl (fun h did => updFn h did (upd (h did))) f else f)
      x (fun e' he' => hx e' (List.mem_cons_of_mem _ he'))
    unfold consensusFold at this
    rw [this, hstep]

/-- Evaluation of the consensus pass at an id that occurs (once) in exactly
one group. -/
theorem consFold_eval {α : Type} (upd : α → α) :
    ∀ (gs : List (String × List String)) (f : String → α) {x u : String}
      {ids : List String},
      (gs.map Prod.fst).Nodup → (u, ids) ∈ gs → ids.Nodup → x ∈ ids →
      (∀ e ∈ gs, e.1 ≠ u → x ∉ e.2) →
      consensusFold upd gs f x = if 2 ≤ ids.length then upd (f x) else f x := by
  intro gs
  induction gs with
  | nil => intro f x u ids _ hm; simp at hm
  | cons e gs' ih =>
    intro f x u ids hkeys hmem hidsnd hxids hother
    simp only [List.map_cons, List.nodup_cons] at hkeys
    unfold consensusFold
    rw [List.foldl_cons]
    rcases List.mem_cons.mp hmem with h | h
    · subst h
      have hnone : ∀ e' ∈ gs', x ∉ e'.2 := by
        intro e' he'
        by_cases hk : e'.1 = u
        · exfalso
          have hmm : e'.1 ∈ gs'.map Prod.fst := List.mem_map_of_mem Prod.fst he'
          rw [hk] at hmm
          exact hkeys.1 hmm
        · exact hother e' (List.mem_cons_of_mem _ he') hk
      have hskip := consFold_skip upd gs'
        (if 2 ≤ ids.length then ids.foldl (fun h did => updFn h did (upd (h did))) f else f)
        x hnone
      unfold consensusFold at hskip
      rw [hskip]
      split
      · exact bumpFold_once upd ids f hidsnd hxids
      · rfl
    · have hne : e.1 ≠ u := by
        intro hk
        have hmm : (u, ids).1 ∈ gs'.map Prod.fst := List.mem_map_of_mem Prod.fst h
        rw [← hk] at hmm
        exact hkeys.1 hmm
      have hstep :
          (if 2 ≤ e.2.length then e.2.foldl (fun h did => updFn h did (upd (h did))) f else f) x
            = f x := by
        split
        · exact bumpFold_not_mem upd e.2 f x (hother e (List.mem_cons_self _ _) hne)
        · rfl
      have := ih (if 2 ≤ e.2.length then e.2.foldl (fun h did => updFn h did (upd (h did))) f else f)
        hkeys.2 h hidsnd hxids (fun e' he' => hother e' (List.mem_cons_of_mem _ he'))
      unfold consensusFold at this
      rw [this, hstep]

theorem map_fst_update (acc : List (String × List String)) (u did : String) :
    (acc.map (fun e => if e.1 = u then (e.1, e.2 ++ [did]) else e)).map Prod.fst
      = acc.map Prod.fst := by
  induction acc with
  | nil => rfl
  | cons e tl ih =>
    simp only [List.map_cons, ih]
    congr 1
    split <;> rfl

theorem urlIds_snoc (u : String) (seen : List Candidate) (c : Candidate) :
    urlIds u (seen ++ [c]) =
      urlIds u seen ++ (if c.url == u then [c.doc_id] else []) := by
  unfold urlIds
  rw [List.filter_append, List.map_append]
  congr 1
  simp only [List.filter]
  split <;> simp_all

theorem urlIds_nil_of_absent (u : String) (seen : List Candidate)
    (h : ∀ d ∈ seen, d.url ≠ u) : urlIds u seen = [] := by
  unfold urlIds
  have : seen.filter (fun d => d.url == u) = [] := by
    rw [List.filter_eq_nil]
    intro d hd
    simpa using h d hd
  rw [this, List.map_nil]

/-- Fold invariant for the `by_url` grouping dict: keys are distinct, each
group holds exactly the doc ids of the candidates with its url (in input
order), and the keys are exactly the urls seen. -/
theorem gbu_aux :
    ∀ (cs : List Candidate) (acc : List (String × List String)) (seen : List Candidate),
      (acc.map Prod.fst).Nodup →
      (∀ e ∈ acc, e.2 = urlIds e.1 seen) →
      (∀ u, (∃ e ∈ acc, e.1 = u) ↔ ∃ d ∈ seen, d.url = u) →
      ((cs.foldl addUrl acc).map Prod.fst).Nodup ∧
      (∀ e ∈ cs.foldl addUrl acc, e.2 = urlIds e.1 (seen ++ cs)) ∧
      (∀ u, (∃ e ∈ cs.foldl addUrl acc, e.1 = u) ↔ ∃ d ∈ seen ++ cs, d.url = u) := by
  intro cs
  induction cs with
  | nil =>
    intro acc seen h1 h2 h3
    simp only [List.foldl_nil, List.append_nil]
    exact ⟨h1, h2, h3⟩
  | cons c cs' ih =>
    intro acc seen h1 h2 h3
    rw [List.foldl_cons]
    have hassoc : seen ++ c :: cs' = (seen ++ [c]) ++ cs' := by simp
    rw [hassoc]
    by_cases hany : acc.any (fun e => e.1 == c.url) = true
    · have hacc' : addUrl acc c
          = acc.map (fun e => if e.1 = c.url then (e.1, e.2 ++ [c.doc_id]) else e) := by
        unfold addUrl
        rw [if_pos hany]
      rw [hacc']
      apply ih
      · rw [map_fst_update]
        exact h1
      · intro e' he'
        obtain ⟨e, he, hee⟩ := List.mem_map.mp he'
        subst hee
        rw [urlIds_snoc]
        by_cases hk : e.1 = c.url
        · rw [if_pos hk, hk]
          simp only [beq_self_eq_true, if_pos]
          rw [← hk, ← h2 e he]
        · rw [if_neg hk]
          have : (c.url == e.1) = false := by
            simp only [beq_eq_false_iff_ne, ne_eq]
            exact fun hc => hk hc.symm
          rw [this]
          simp only [if_neg Bool.false_ne_true, List.append_nil]
          exact h2 e he
      · intro u
        have hkeys : (∃ e ∈ acc.map (fun e => if e.1 = c.url then (e.1, e.2 ++ [c.doc_id]) else e),
            e.1 = u) ↔ ∃ e ∈ acc, e.1 = u := by
          constructor
          · rintro ⟨e', he', hu⟩
            obtain ⟨e, he, hee⟩ := List.mem_map.mp he'
            refine ⟨e, he, ?_⟩
            rw [← hu, ← hee]
            split <;> rfl
          · rintro ⟨e, he, hu⟩
            refine ⟨if e.1 = c.url then (e.1, e.2 ++ [c.doc_id]) else e,
              List.mem_map_of_mem _ he, ?_⟩
            rw [← hu]
            split <;> rfl
        rw [hkeys, h3 u]
        constructor
        · rintro ⟨d, hd, hu⟩
          exact ⟨d, List.mem_append_left _ hd, hu⟩
        · rintro ⟨d, hd, hu⟩
          rcases List.mem_append.mp hd with hd | hd
          · exact ⟨d, hd, hu⟩
          · rw [List.mem_singleton.mp hd] at hu
            obtain ⟨e, he, heu⟩ := List.any_eq_true.mp hany
            have : e.1 = c.url := by simpa using heu
            exact (h3 u).mp ⟨e, he, this.trans hu⟩
    · have hacc' : addUrl acc c = acc ++ [(c.url, [c.doc_id])] := by
        unfold addUrl
        rw [if_neg hany]
      have hnokey : ∀ e ∈ acc, e.1 ≠ c.url := by
        intro e he hk
        exact hany (List.any_eq_true.mpr ⟨e, he, by simpa using hk⟩)
      have hnoseen : ∀ d ∈ seen, d.url ≠ c.url := by
        intro d hd hu
        obtain ⟨e, he, hk⟩ := (h3 c.url).mpr ⟨d, hd, hu⟩
        exact hnokey e he hk
      rw [hacc']
      apply ih
      · rw [List.map_append]
        rw [List.nodup_append]
        refine ⟨h1, by simp, ?_⟩
        intro k hk hk'
        simp only [List.map_cons, List.map_nil, List.mem_singleton] at hk'
        obtain ⟨e, he, hee⟩ := List.mem_map.mp hk
        exact hnokey e he (by rw [hee, hk'])
      · intro e' he'
        rcases List.mem_append.mp he' with he | he
        · rw [urlIds_snoc]
          have : (c.url == e'.1) = false := by
            simp only [beq_eq_false_iff_ne, ne_eq]
            exact fun hc => hnokey e' he hc.symm
          rw [this]
          simp only [if_neg Bool.false_ne_true, List.append_nil]
          exact h2 e' he
        · rw [List.mem_singleton.mp he]
          rw [urlIds_snoc, urlIds_nil_of_absent c.url seen hnoseen]
          simp
      · intro u
        constructor
        · rintro ⟨e, he, hu⟩
          rcases List.mem_append.mp he with he | he
          · obtain ⟨d, hd, hdu⟩ := (h3 u).mp ⟨e, he, hu⟩
            exact ⟨d, List.mem_append_left _ hd, hdu⟩
          · rw [List.mem_singleton.mp he] at hu
            exact ⟨c, List.mem_append_right _ (List.mem_singleton.mpr rfl), hu⟩
        · rintro ⟨d, hd, hu⟩
          rcases List.mem_append.mp hd with hd | hd
          · obtain ⟨e, he, hk⟩ := (h3 u).mpr ⟨d, hd, hu⟩
            exact ⟨e, List.mem_append_left _ he, hk⟩
          · rw [List.mem_singleton.mp hd] at hu
            exact ⟨(c.url, [c.doc_id]), List.mem_append_right _ (List.mem_singleton.mpr rfl), hu⟩

/-- The `by_url` grouping dict: distinct keys, each group holding exactly the
ids of the candidates with that url, keys = urls present. -/
theorem groupByUrl_spec (cs : List Candidate) :
    ((groupByUrl cs).map Prod.fst).Nodup ∧
    (∀ e ∈ groupByUrl cs, e.2 = urlIds e.1 cs) ∧
    (∀ u, (∃ e ∈ groupByUrl cs, e.1 = u) ↔ ∃ d ∈ cs, d.url = u) := by
  have := gbu_aux cs [] [] (by simp) (by simp) (by simp)
  simpa [groupByUrl] using this

/-- With distinct doc ids, candidates with the same doc id are equal. -/
theorem docId_inj {cs : List Candidate} (hnd : (cs.map (fun c => c.doc_id)).Nodup)
    {d c : Candidate} (hd : d ∈ cs) (hc : c ∈ cs) (h : d.doc_id = c.doc_id) : d = c :=
  List.inj_on_of_nodup_map hnd hd hc h

/-- An id never occurs in the group of a different url (distinct doc ids). -/
theorem not_mem_other_group {cs : List Candidate} (hnd : (cs.map (fun c => c.doc_id)).Nodup)
    {c : Candidate} (hc : c ∈ cs) {u : String} (hu : u ≠ c.url) :
    c.doc_id ∉ urlIds u cs := by
  intro hmem
  obtain ⟨d, hd, hdid⟩ := List.mem_map.mp hmem
  have hdm := List.mem_filter.mp hd
  have hdc : d = c := docId_inj hnd hdm.1 hc hdid
  subst hdc
  have hcu : d.url = u := by simpa using hdm.2
  exact hu hcu.symm

/-- The contents of a candidate's own url group. -/
theorem own_group_mem {cs : List Candidate} {c : Candidate} (hc : c ∈ cs) :
    c.doc_id ∈ urlIds c.url cs := by
  apply List.mem_map_of_mem
  rw [List.mem_filter]
  exact ⟨hc, by simp⟩

theorem urlIds_nodup {cs : List Candidate} (hnd : (cs.map (fun c => c.doc_id)).Nodup)
    (u : String) : (urlIds u cs).Nodup := by
  unfold urlIds
  exact hnd.sublist ((List.filter_sublist cs).map _)

/-- Evaluation of the post-consensus score/reason map at a candidate's id,
generic in the base value and the consensus update. -/
theorem consensus_eval {α : Type} (dflt : α) (val : Candidate → α) (upd : α → α)
    {cs : List Candidate} {c : Candidate}
    (hnd : (cs.map (fun c => c.doc_id)).Nodup) (hc : c ∈ cs) :
    consensusFold upd (groupByUrl cs) (buildMap dflt val cs) c.doc_id
      = if 2 ≤ (cs.filter (fun d => d.url == c.url)).length
        then upd (val c) else val c := by
  obtain ⟨hkeys, hcontent, hkeyiff⟩ := groupByUrl_spec cs
  obtain ⟨e, he, hk⟩ := (hkeyiff c.url).mpr ⟨c, hc, rfl⟩
  have hee : e = (c.url, urlIds c.url cs) := by
    have h2 := hcontent e he
    calc e = (e.1, e.2) := rfl
    _ = (c.url, urlIds c.url cs) := by rw [h2, hk]
  rw [hee] at he
  have hlen : (urlIds c.url cs).length = (cs.filter (fun d => d.url == c.url)).length := by
    unfold urlIds
    rw [List.length_map]
  have := consFold_eval upd (groupByUrl cs) (buildMap dflt val cs)
    hkeys he (urlIds_nodup hnd c.url) (own_group_mem hc)
    (fun e' he' hne => by
      rw [hcontent e' he']
      exact not_mem_other_group hnd hc hne)
  rw [this, hlen, buildMap_eval dflt val cs hnd hc]

/-- C3: in `rank`, a candidate sharing its url with at least one other
candidate gets the flat +0.05 added to its total exactly once and the
consensus reason line appended exactly once; a candidate with a unique url
gets neither. (Stated for inputs with distinct doc ids, the identity the
scores dict is keyed by.) -/
theorem C3_consensus (l10 : ℚ → ℚ) (now : ℚ) (candidates : List Candidate)
    (query : String) (c : Candidate)
    (hnd : (candidates.map (fun c => c.doc_id)).Nodup) (hc : c ∈ candidates) :
    (∃ chosen, rank l10 now candidates query =
        some (chosen, rankScores l10 now candidates query,
              rankReasons l10 now candidates query)) ∧
    rankScores l10 now candidates query c.doc_id =
      scoreCandidate l10 now c query +
        (if 2 ≤ (candidates.filter (fun d => d.url == c.url)).length
         then (0.05 : ℚ) else 0) ∧
    rankReasons l10 now candidates query c.doc_id =
      baseReasons l10 now query c ++
        (if 2 ≤ (candidates.filter (fun d => d.url == c.url)).length
         then ["consensus=+0.05"] else []) := by
  refine ⟨?_, ?_, ?_⟩
  · match candidates, hc with
    | c0 :: rest, _ => exact ⟨_, rfl⟩
  · have := consensus_eval (0 : ℚ) (fun c => scoreCandidate l10 now c query)
      (fun v => v + 0.05) hnd hc
    rw [rankScores, this]
    split <;> simp
  · have := consensus_eval ([] : List String) (baseReasons l10 now query)
      (fun r => r ++ ["consensus=+0.05"]) hnd hc
    rw [rankReasons, this]
    split <;> simp

/-- C3 witness: a three-candidate list where the first and third share a url
and the second is unique; applied at the url-sharing first candidate. -/
theorem C3_witness :
    (([exSlack, exDrive, exTwin].map (fun c => c.doc_id)).Nodup ∧
      exSlack ∈ [exSlack, exDrive, exTwin]) ∧
    ((∃ chosen, rank l10zero 0 [exSlack, exDrive, exTwin] "deploy" =
        some (chosen, rankScores l10zero 0 [exSlack, exDrive, exTwin] "deploy",
              rankReasons l10zero 0 [exSlack, exDrive, exTwin] "deploy")) ∧
    rankScores l10zero 0 [exSlack, exDrive, exTwin] "deploy" exSlack.doc_id =
      scoreCandidate l10zero 0 exSlack "deploy" +
        (if 2 ≤ ([exSlack, exDrive, exTwin].filter
            (fun d => d.url == exSlack.url)).length
         then (0.05 : ℚ) else 0) ∧
    rankReasons l10zero 0 [exSlack, exDrive, exTwin] "deploy" exSlack.doc_id =
      baseReasons l10zero 0 "deploy" exSlack ++
        (if 2 ≤ ([exSlack, exDrive, exTwin].filter
            (fun d => d.url == exSlack.url)).length
         then ["consensus=+0.05"] else [])) :=
  ⟨⟨by decide, by decide⟩,
   C3_consensus l10zero 0 [exSlack, exDrive, exTwin] "deploy" exSlack
     (by decide) (by decide)⟩

/-! ## C4: the no-token fallback fires on duplicate, not distinct, tokens -/

/-- If the fallback scan returns nothing, the token values it walked are
pairwise distinct and disjoint from the `seen` keys. -/
theorem findDup_none (cid : String) :
    ∀ (items : List (Candidate × String)) (seen : List (String × Candidate)),
      findDup cid items seen = none →
      (items.map Prod.snd).Nodup ∧ ∀ t ∈ items.map Prod.snd, ∀ e ∈ seen, e.1 ≠ t := by
  intro items
  induction items with
  | nil => intro seen _; exact ⟨List.nodup_nil, by simp⟩
  | cons p rest ih =>
    intro seen hnone
    obtain ⟨c, t⟩ := p
    rw [findDup] at hnone
    cases hfind : seen.find? (fun e => e.1 == t) with
    | some e => rw [hfind] at hnone; exact absurd hnone (by simp)
    | none =>
      rw [hfind] at hnone
      obtain ⟨ihnd, ihseen⟩ := ih (seen ++ [(t, c)]) hnone
      have hseen_t : ∀ e ∈ seen, e.1 ≠ t := by
        intro e he
        have := List.find?_eq_none.mp hfind e he
        simpa using this
      constructor
      · rw [List.map_cons, List.nodup_cons]
        refine ⟨?_, ihnd⟩
        intro hmem
        exact ihseen t hmem (t, c) (List.mem_append_right _ (List.mem_singleton.mpr rfl)) rfl
      · intro t' ht' e he
        rcases List.mem_cons.mp ht' with h | h
        · subst h; exact hseen_t e he
        · exact ihseen t' h e (List.mem_append_left _ he)

/-- Any candidate the fallback scan returns inherits a property shared by all
scanned candidates and all remembered ones. -/
theorem findDup_prop (cid : String) (P : Candidate → Prop) :
    ∀ (items : List (Candidate × String)) (seen : List (String × Candidate))
      (ct : Candidate),
      (∀ p ∈ items, P p.1) → (∀ e ∈ seen, P e.2) →
      findDup cid items seen = some ct → P ct := by
  intro items
  induction items with
  | nil => intro seen ct _ _ h; simp [findDup] at h
  | cons p rest ih =>
    intro seen ct hitems hseen hsome
    obtain ⟨c, t⟩ := p
    rw [findDup] at hsome
    cases hfind : seen.find? (fun e => e.1 == t) with
    | some e =>
      rw [hfind] at hsome
      have he : e ∈ seen := List.mem_of_find?_eq_some hfind
      have : (if c.doc_id ≠ cid then c else e.2) = ct := by
        simpa using hsome
      rw [← this]
      split
      · exact hitems (c, t) (List.mem_cons_self _ _)
      · exact hseen e he
    | none =>
      rw [hfind] at hsome
      refine ih (seen ++ [(t, c)]) ct
        (fun p hp => hitems p (List.mem_cons_of_mem _ hp)) ?_ hsome
      intro e he
      rcases List.mem_append.mp he with h | h
      · exact hseen e h
      · rw [List.mem_singleton.mp h]
        exact hitems (c, t) (List.mem_cons_self _ _)

/-- C4 counterexample: the winner's redacted snippet has no time token and
the ranked candidates carry the two distinct tokens `3pm` and `4pm`, yet
`guard` reports no conflict (the source's fallback only fires when the same
token occurs twice). -/
theorem C4_counterexample :
    extractTimeToken (redact exPlain.snippet) = "" ∧
    extractTimeToken (redact exSlack.snippet) = "3pm" ∧
    extractTimeToken (redact exDrive.snippet) = "4pm" ∧
    ("3pm" : String) ≠ "4pm" ∧
    (guard exPlain [exPlain, exSlack, exDrive] none).2.2.1 = false := by
  refine ⟨?_, ?_, ?_, ?_, ?_⟩ <;> decide

/-- C4 (amended): when the winner's (post-redaction) snippet has no time
token, `guard` raises a conflict whenever the same non-empty time token is
extracted from two different ranked candidates (doc ids distinct, winner in
the list); the contradictor it selects is a non-winner. Two or more merely
distinct tokens do not raise a conflict. -/
theorem C4_dup_conflict (chosen : Candidate) (ranked : List Candidate)
    (sc : Option (String → ℚ))
    (hnd : (ranked.map (fun c => c.doc_id)).Nodup)
    (hcm : chosen ∈ ranked)
    (hno : extractTimeToken (redact chosen.snippet) = "")
    (c1 c2 : Candidate) (h1 : c1 ∈ ranked) (h2 : c2 ∈ ranked) (hne : c1 ≠ c2)
    (ht1 : extractTimeToken (redact c1.snippet) ≠ "")
    (heq : extractTimeToken (redact c1.snippet) = extractTimeToken (redact c2.snippet)) :
    (guard chosen ranked sc).2.2.1 = true ∧
    ∃ ct, findContradictor (redactCand chosen) (redactAll ranked) = some ct ∧
      ct.doc_id ≠ chosen.doc_id := by
  set times := ((redactAll ranked).map (fun c => (c, extractTimeToken c.snippet))).filter
    (fun p => p.2 != "") with htimes
  have hchosen2 : extractTimeToken (redactCand chosen).snippet = "" := hno
  have hcontra_eq : findContradictor (redactCand chosen) (redactAll ranked)
      = findDup (redactCand chosen).doc_id times [] := by
    rw [findContradictor]
    rw [if_neg (by simpa using hchosen2)]
  have hmem_times : ∀ d ∈ ranked, extractTimeToken (redact d.snippet) ≠ "" →
      (redactCand d, extractTimeToken (redact d.snippet)) ∈ times := by
    intro d hd hdt
    rw [htimes]
    rw [List.mem_filter]
    constructor
    · have : redactCand d ∈ redactAll ranked := List.mem_map_of_mem redactCand hd
      have := List.mem_map_of_mem (fun c => (c, extractTimeToken c.snippet)) this
      simpa using this
    · simpa using hdt
  have hp1 : (redactCand c1, extractTimeToken (redact c1.snippet)) ∈ times :=
    hmem_times c1 h1 ht1
  have hp2 : (redactCand c2, extractTimeToken (redact c2.snippet)) ∈ times :=
    hmem_times c2 h2 (by rw [← heq]; exact ht1)
  have hpne : (redactCand c1, extractTimeToken (redact c1.snippet))
      ≠ (redactCand c2, extractTimeToken (redact c2.snippet)) := by
    intro h
    have hfst : redactCand c1 = redactCand c2 := congrArg Prod.fst h
    have hid : c1.doc_id = c2.doc_id := by
      have := congrArg Candidate.doc_id hfst
      simpa [redactCand] using this
    exact hne (docId_inj hnd h1 h2 hid)
  have hdup : ¬ (times.map Prod.snd).Nodup := by
    intro hnodup
    apply hpne
    refine List.inj_on_of_nodup_map hnodup hp1 hp2 ?_
    simpa using heq
  have hsome : ∃ ct, findDup (redactCand chosen).doc_id times [] = some ct := by
    cases hq : findDup (redactCand chosen).doc_id times [] with
    | some ct => exact ⟨ct, rfl⟩
    | none => exact absurd (findDup_none _ times [] hq).1 hdup
  obtain ⟨ct, hct⟩ := hsome
  have hP : ct.doc_id ≠ chosen.doc_id := by
    refine findDup_prop _ (fun x => x.doc_id ≠ chosen.doc_id) times [] ct ?_ (by simp) hct
    intro p hp
    rw [htimes] at hp
    have hpm := List.mem_filter.mp hp
    obtain ⟨c', hc', hcp⟩ := List.mem_map.mp hpm.1
    obtain ⟨d, hd, hdc⟩ := List.mem_map.mp hc'
    intro hideq
    have hdid : d.doc_id = chosen.doc_id := by
      have : c'.doc_id = d.doc_id := by rw [← hdc]; rfl
      rw [← hcp] at hideq
      simp only at hideq
      rw [this] at hideq
      exact hideq
    have : d = chosen := docId_inj hnd hd hcm hdid
    subst this
    have hsnip : p.2 = extractTimeToken (redact d.snippet) := by
      rw [← hcp, ← hdc]
      rfl
    have : p.2 ≠ "" := by simpa using hpm.2
    rw [hsnip] at this
    exact this hno
  have hcontra : findContradictor (redactCand chosen) (redactAll ranked) = some ct := by
    rw [hcontra_eq, hct]
  constructor
  · rw [guard]
    rw [hcontra]
  · exact ⟨ct, hcontra, hP⟩

/-- C4 witness: the amended theorem at a winner with no time token and two
candidates both carrying `3pm`. -/
theorem C4_witness :
    (([exPlain, exSlack, exDup].map (fun c => c.doc_id)).Nodup ∧
      exPlain ∈ [exPlain, exSlack, exDup] ∧
      extractTimeToken (redact exPlain.snippet) = "" ∧
      exSlack ∈ [exPlain, exSlack, exDup] ∧ exDup ∈ [exPlain, exSlack, exDup] ∧
      exSlack ≠ exDup ∧
      extractTimeToken (redact exSlack.snippet) ≠ "" ∧
      extractTimeToken (redact exSlack.snippet) = extractTimeToken (redact exDup.snippet)) ∧
    ((guard exPlain [exPlain, exSlack, exDup] none).2.2.1 = true ∧
      ∃ ct, findContradictor (redactCand exPlain) (redactAll [exPlain, exSlack, exDup])
          = some ct ∧ ct.doc_id ≠ exPlain.doc_id) :=
  ⟨⟨by decide, by decide, by decide, by decide, by decide, by decide, by decide, by decide⟩,
   C4_dup_conflict exPlain [exPlain, exSlack, exDup] none (by decide) (by decide)
     (by decide) exSlack exDup (by decide) (by decide) (by decide) (by decide)
     (by decide)⟩

/-! ## C8: the extracted time token (corrected: the pattern allows one
optional whitespace and requires word boundaries) -/

theorem prevAt_none (a : List Char) : prevAt none a = a.getLast? := by
  unfold prevAt
  cases a.getLast? <;> rfl

theorem getLast?_cons_isSome (c : Char) (l : List Char) :
    ∃ x, (c :: l).getLast? = some x := by
  induction l generalizing c with
  | nil => exact ⟨c, rfl⟩
  | cons d tl ih =>
    obtain ⟨x, hx⟩ := ih d
    exact ⟨x, by rw [List.getLast?_cons_cons]; exact hx⟩

theorem prevAt_cons (prev : Option Char) (c : Char) (a : List Char) :
    prevAt prev (c :: a) = prevAt (some c) a := by
  cases a with
  | nil => rfl
  | cons d tl =>
    obtain ⟨x, hx⟩ := getLast?_cons_isSome d tl
    unfold prevAt
    rw [List.getLast?_cons_cons, hx]

theorem timeAltOne_ne_nil {s tok : List Char} (h : timeAltOne s = some tok) : tok ≠ [] := by
  unfold timeAltOne at h
  split at h
  · split at h
    · cases htt : timeTail _ with
      | some u =>
        rw [htt] at h
        simp only [Option.map_some'] at h
        injection h with h'
        rw [← h']
        simp
      | none => rw [htt] at h; simp at h
    · simp at h
  · simp at h

theorem matchTimeAt_ne_nil {prev : Option Char} {s tok : List Char}
    (h : matchTimeAt prev s = some tok) : tok ≠ [] := by
  unfold matchTimeAt at h
  split at h
  · split at h
    · split at h
      · split at h
        · injection h with h'
          rw [← h']
          simp
        · exact timeAltOne_ne_nil h
      · exact timeAltOne_ne_nil h
    · exact timeAltOne_ne_nil h
  · simp at h

/-- If the scan returns nothing, no position matches. -/
theorem searchGo_none (prev : Option Char) :
    ∀ s : List Char, searchTimeGo prev s = none →
      ∀ a b : List Char, s = a ++ b → matchTimeAt (prevAt prev a) b = none := by
  intro s
  induction s generalizing prev with
  | nil =>
    intro h a b hab
    obtain ⟨ha, hb⟩ := List.append_eq_nil.mp hab.symm
    subst ha; subst hb
    simpa [searchTimeGo, prevAt] using h
  | cons c r ih =>
    intro h a b hab
    rw [searchTimeGo] at h
    cases hm : matchTimeAt prev (c :: r) with
    | some tok => rw [hm] at h; simp at h
    | none =>
      rw [hm] at h
      cases a with
      | nil =>
        have hb : b = c :: r := by simpa using hab.symm
        rw [hb]
        simpa [prevAt] using hm
      | cons a0 a' =>
        rw [List.cons_append] at hab
        injection hab with h1 h2
        subst h1
        rw [prevAt_cons]
        exact ih (some c) h a' b h2

/-- If the scan returns a token, it is the leftmost match. -/
theorem searchGo_some (prev : Option Char) :
    ∀ (s tok : List Char), searchTimeGo prev s = some tok →
      ∃ a b, s = a ++ b ∧ matchTimeAt (prevAt prev a) b = some tok ∧
        ∀ a' b' : List Char, s = a' ++ b' → a'.length < a.length →
          matchTimeAt (prevAt prev a') b' = none := by
  intro s
  induction s generalizing prev with
  | nil =>
    intro tok h
    refine ⟨[], [], rfl, ?_, ?_⟩
    · simpa [searchTimeGo, prevAt] using h
    · intro a' b' _ hlt
      simp at hlt
  | cons c r ih =>
    intro tok h
    rw [searchTimeGo] at h
    cases hm : matchTimeAt prev (c :: r) with
    | some tok' =>
      rw [hm] at h
      refine ⟨[], c :: r, rfl, ?_, ?_⟩
      · injection h with h'
        rw [← h']
        simpa [prevAt] using hm
      · intro a' b' _ hlt
        simp at hlt
    | none =>
      rw [hm] at h
      obtain ⟨a, b, hsplit, hmatch, hmin⟩ := ih (some c) tok h
      refine ⟨c :: a, b, by rw [List.cons_append, hsplit], ?_, ?_⟩
      · rw [prevAt_cons]
        exact hmatch
      · intro a' b' hab hlt
        cases a' with
        | nil =>
          have hb : b' = c :: r := by simpa using hab.symm
          rw [hb]
          simpa [prevAt] using hm
        | cons a0 a'' =>
          rw [List.cons_append] at hab
          injection hab with h1 h2
          subst h1
          rw [prevAt_cons]
          exact hmin a'' b' h2 (by simpa using hlt)

/-- C8 counterexample: on `"at 4 pm"` the extracted token is `"4 pm"`
(non-empty), yet the text contains no hour immediately followed by `pm` —
the code's pattern allows an optional whitespace that the claim forbids. -/
theorem C8_counterexample :
    extractTimeToken "at 4 pm" = "4 pm" ∧ claimContainsHourPm "at 4 pm" = false := by
  constructor <;> decide

/-- C8 (amended): the extracted time token is non-empty iff some position of
the text matches the pattern — an hour 1–12 not preceded by a word
character, followed by at most one whitespace character, then `pm`
(case-insensitive) not followed by a word character — and the token is the
leftmost such match lowercased. -/
theorem C8_time_token (t : String) :
    (extractTimeToken t = "" ↔
      ∀ a b : List Char, t.data = a ++ b → matchTimeAt a.getLast? b = none) ∧
    (extractTimeToken t ≠ "" →
      ∃ a b tok, t.data = a ++ b ∧ matchTimeAt a.getLast? b = some tok ∧
        extractTimeToken t = String.mk (tok.map Char.toLower) ∧
        ∀ a' b' : List Char, t.data = a' ++ b' → a'.length < a.length →
          matchTimeAt a'.getLast? b' = none) := by
  constructor
  · constructor
    · intro hempty a b hab
      cases hs : searchTimeGo none t.data with
      | none =>
        have := searchGo_none none t.data hs a b hab
        rwa [prevAt_none] at this
      | some tok =>
        exfalso
        have htok : tok ≠ [] := by
          obtain ⟨a0, b0, _, hmatch, _⟩ := searchGo_some none t.data tok hs
          exact matchTimeAt_ne_nil hmatch
        have : extractTimeToken t = String.mk (tok.map Char.toLower) := by
          unfold extractTimeToken
          rw [hs]
        rw [this] at hempty
        apply htok
        have : (tok.map Char.toLower) = [] := by
          have := congrArg String.data hempty
          simpa using this
        simpa using this
    · intro hall
      cases hs : searchTimeGo none t.data with
      | none =>
        unfold extractTimeToken
        rw [hs]
      | some tok =>
        exfalso
        obtain ⟨a, b, hab, hmatch, _⟩ := searchGo_some none t.data tok hs
        rw [prevAt_none] at hmatch
        rw [hall a b hab] at hmatch
        exact Option.noConfusion hmatch
  · intro hne
    cases hs : searchTimeGo none t.data with
    | none =>
      exfalso
      apply hne
      unfold extractTimeToken
      rw [hs]
    | some tok =>
      obtain ⟨a, b, hab, hmatch, hmin⟩ := searchGo_some none t.data tok hs
      refine ⟨a, b, tok, hab, by rwa [prevAt_none] at hmatch, ?_, ?_⟩
      · unfold extractTimeToken
        rw [hs]
      · intro a' b' hab' hlt
        have := hmin a' b' hab' hlt
        rwa [prevAt_none] at this

/-- C8 witness: the characterization applied to `"see 2PM,"`, whose token is
`"2pm"`. -/
theorem C8_witness :
    extractTimeToken "see 2PM," ≠ "" ∧
    ∃ a b tok, ("see 2PM,").data = a ++ b ∧ matchTimeAt a.getLast? b = some tok ∧
      extractTimeToken "see 2PM," = String.mk (tok.map Char.toLower) ∧
      ∀ a' b' : List Char, ("see 2PM,").data = a' ++ b' → a'.length < a.length →
        matchTimeAt a'.getLast? b' = none :=
  ⟨by decide, (C8_time_token "see 2PM,").2 (by decide)⟩

/-! ## C6 framework: greedy spans -/

theorem spanLen_le (f : Char → Bool) : ∀ l : List Char, spanLen f l ≤ l.length := by
  intro l
  induction l with
  | nil => exact Nat.le_refl 0
  | cons c r ih =>
    rw [spanLen]
    split
    · simpa using ih
    · simp

theorem spanLen_head_false (f : Char → Bool) {c : Char} (l : List Char)
    (h : f c = false) : spanLen f (c :: l) = 0 := by
  rw [spanLen]
  simp [h]

/-- If the continuation starts with a failing character, a greedy span over
the concatenation is the span over the first part. -/
theorem spanLen_append_stop (f : Char → Bool) :
    ∀ (l₁ l₂ : List Char), spanLen f l₂ = 0 → spanLen f (l₁ ++ l₂) = spanLen f l₁ := by
  intro l₁
  induction l₁ with
  | nil => intro l₂ h; simpa using h
  | cons c r ih =>
    intro l₂ h
    rw [List.cons_append, spanLen, spanLen]
    split
    · rw [ih l₂ h]
    · rfl

theorem spanLen_le_append (f : Char → Bool) :
    ∀ (l₁ l₂ : List Char), spanLen f l₁ ≤ spanLen f (l₁ ++ l₂) := by
  intro l₁
  induction l₁ with
  | nil => intro l₂; simp [spanLen]
  | cons c r ih =>
    intro l₂
    rw [List.cons_append, spanLen, spanLen]
    split
    · simpa using ih l₂
    · simp

/-- The character right after a greedy span fails the predicate. -/
theorem spanLen_drop_head (f : Char → Bool) :
    ∀ (l : List Char) {u : Char} {rest : List Char},
      l.drop (spanLen f l) = u :: rest → f u = false := by
  intro l
  induction l with
  | nil => intro u rest h; simp at h
  | cons c r ih =>
    intro u rest h
    rw [spanLen] at h
    by_cases hc : f c = true
    · rw [if_pos hc] at h
      rw [List.drop_succ_cons] at h
      exact ih h
    · rw [if_neg hc] at h
      rw [List.drop_zero] at h
      injection h with h1 _
      rw [← h1]
      exact Bool.eq_false_iff.mpr hc

/-! ## C6 framework: `noMatch` -/

theorem noMatch_iff_splits (m : List Char → Option Nat) :
    ∀ s : List Char, noMatch m s ↔ ∀ a b : List Char, s = a ++ b → m b = none := by
  intro s
  induction s with
  | nil =>
    constructor
    · intro h a b hab
      obtain ⟨ha, hb⟩ := List.append_eq_nil.mp hab.symm
      rw [hb]
      exact h
    · intro h
      exact h [] [] rfl
  | cons c r ih =>
    constructor
    · rintro ⟨h1, h2⟩ a b hab
      cases a with
      | nil => rw [show b = c :: r by simpa using hab.symm]; exact h1
      | cons a0 a' =>
        rw [List.cons_append] at hab
        injection hab with _ hr
        exact (ih.mp h2) a' b hr
    · intro h
      refine ⟨h [] (c :: r) rfl, ih.mpr ?_⟩
      intro a b hab
      exact h (c :: a) b (by rw [List.cons_append, hab])

theorem noMatch_drop (m : List Char → Option Nat) {s : List Char} (h : noMatch m s)
    (n : Nat) : noMatch m (s.drop n) := by
  rw [noMatch_iff_splits] at h ⊢
  intro a b hab
  exact h (s.take n ++ a) b (by rw [List.append_assoc, ← hab, List.take_append_drop])

theorem noMatch_append_of (m : List Char → Option Nat) :
    ∀ (p y : List Char), noMatchOn m p y → noMatch m y → noMatch m (p ++ y) := by
  intro p
  induction p with
  | nil => intro y _ hy; simpa using hy
  | cons c rest ih =>
    intro y hon hy
    obtain ⟨h1, h2⟩ := hon
    exact ⟨h1, ih y h2 hy⟩

/-! ## C6 framework: the substitution computes `SubRel` -/

theorem substGoF_subRel (m : List Char → Option Nat)
    (hpos : ∀ {s : List Char} {n : Nat}, m s = some n → 1 ≤ n) :
    ∀ (fuel : Nat) (s : List Char), s.length ≤ fuel →
      SubRel m s (substGoF m fuel s) := by
  intro fuel
  induction fuel with
  | zero =>
    intro s hs
    rw [List.length_eq_zero.mp (Nat.le_zero.mp hs)]
    exact SubRel.nil
  | succ fuel ih =>
    intro s hs
    cases s with
    | nil => exact SubRel.nil
    | cons c rest =>
      rw [substGoF]
      cases hm : m (c :: rest) with
      | none =>
        exact SubRel.copy c rest _ hm (ih rest (by simpa using Nat.lt_succ_iff.mp hs))
      | some n =>
        have hn : 1 ≤ n := hpos hm
        have hdrop : (c :: rest).drop n = rest.drop (n - 1) := by
          obtain ⟨k, rfl⟩ := Nat.exists_eq_add_of_le hn
          simp [Nat.add_comm 1 k]
        refine SubRel.repl _ _ n hm ?_
        rw [← hdrop]
        have : ((c :: rest).drop n).length ≤ fuel := by
          rw [List.length_drop]
          simp only [List.length_cons] at hs ⊢
          omega
        rw [hdrop] at this ⊢
        exact ih _ this

theorem subst_subRel (m : List Char → Option Nat)
    (hpos : ∀ {s : List Char} {n : Nat}, m s = some n → 1 ≤ n) (s : List Char) :
    SubRel m s (subst m s) :=
  substGoF_subRel m hpos s.length s (Nat.le_refl _)

theorem substGoF_id (m : List Char → Option Nat) :
    ∀ (fuel : Nat) (s : List Char), noMatch m s → substGoF m fuel s = s := by
  intro fuel
  induction fuel with
  | zero => intro s _; rfl
  | succ fuel ih =>
    intro s hs
    cases s with
    | nil => rfl
    | cons c rest =>
      obtain ⟨h1, h2⟩ := hs
      rw [substGoF, h1, ih rest h2]

theorem subst_id (m : List Char → Option Nat) {s : List Char} (h : noMatch m s) :
    subst m s = s :=
  substGoF_id m s.length s h

/-- First-divergence decomposition of a substitution pass: either nothing was
replaced, or the input splits as a wholly copied prefix followed by a match. -/
theorem subRel_decompose {m : List Char → Option Nat} {s r : List Char}
    (h : SubRel m s r) :
    r = s ∨ ∃ p q n r₂, s = p ++ q ∧ r = p ++ redactMarker ++ r₂ ∧
      m q = some n ∧ SubRel m (q.drop n) r₂ := by
  induction h with
  | nil => exact Or.inl rfl
  | copy c s' r' hnone _ ih =>
    rcases ih with heq | ⟨p, q, n, r₂, hs, hr, hmq, hrel⟩
    · exact Or.inl (by rw [heq])
    · refine Or.inr ⟨c :: p, q, n, r₂, ?_, ?_, hmq, hrel⟩
      · rw [List.cons_append, ← hs]
      · rw [hr]
        simp
  | repl s' r₂ n hm hrel _ =>
    exact Or.inr ⟨[], s', n, r₂, rfl, by simp, hm, hrel⟩

/-- Self-preservation: the output of one substitution pass has no match of
its own pattern anywhere. -/
theorem subRel_self_noMatch {m : List Char → Option Nat} (hok : MatcherOK m) :
    ∀ {s r : List Char}, SubRel m s r → noMatch m r := by
  intro s r h
  induction h with
  | nil => exact hok.nilNone
  | copy c s' r' hnone hrel ih =>
    refine ⟨?_, ih⟩
    rcases subRel_decompose hrel with heq | ⟨p, q, n, r₂, hs, hr, hmq, _⟩
    · rw [heq]
      exact hnone
    · by_contra hne
      have hcr : c :: r' = (c :: p) ++ redactMarker ++ r₂ := by rw [hr]; simp
      have hne' : m ((c :: p) ++ redactMarker ++ r₂) ≠ none := by rw [← hcr]; exact hne
      obtain ⟨q0, q', hq, hq0⟩ := hok.headNonSpace hmq
      have htr := hok.transfer (c :: p) r₂ q0 q' hq0 hne'
      apply htr
      have hqs : (c :: p) ++ q0 :: q' = c :: s' := by
        rw [← hq, List.cons_append, ← hs]
      rw [hqs]
      exact hnone
  | repl s' r₂ n hm hrel ih =>
    exact noMatch_append_of m redactMarker _ (hok.immune _) ih

/-- Cross-preservation: a substitution pass for `mj` cannot create a match of
another pattern `mi` that was absent before. -/
theorem subRel_cross_noMatch {mi mj : List Char → Option Nat}
    (hoki : MatcherOK mi) (hokj : MatcherOK mj) :
    ∀ {s r : List Char}, SubRel mj s r → noMatch mi s → noMatch mi r := by
  intro s r h
  induction h with
  | nil => intro hnm; exact hnm
  | copy c s' r' hnone hrel ih =>
    intro hnm
    obtain ⟨hnm1, hnm2⟩ := hnm
    refine ⟨?_, ih hnm2⟩
    rcases subRel_decompose hrel with heq | ⟨p, q, n, r₂, hs, hr, hmq, _⟩
    · rw [heq]
      exact hnm1
    · by_contra hne
      have hcr : c :: r' = (c :: p) ++ redactMarker ++ r₂ := by rw [hr]; simp
      have hne' : mi ((c :: p) ++ redactMarker ++ r₂) ≠ none := by rw [← hcr]; exact hne
      obtain ⟨q0, q', hq, hq0⟩ := hokj.headNonSpace hmq
      have htr := hoki.transfer (c :: p) r₂ q0 q' hq0 hne'
      apply htr
      have hqs : (c :: p) ++ q0 :: q' = c :: s' := by
        rw [← hq, List.cons_append, ← hs]
      rw [hqs]
      exact hnm1
  | repl s' r₂ n hm hrel ih =>
    intro hnm
    have := ih (noMatch_drop mi hnm _)
    exact noMatch_append_of mi redactMarker _ (hoki.immune _) this

/-! ## C6 framework: marker tracking (for C5) -/

/-- A substitution pass walks through a match-free prefix by pure copying. -/
theorem subRel_through (m : List Char → Option Nat) :
    ∀ (pre y r : List Char), noMatchOn m pre y → SubRel m (pre ++ y) r →
      ∃ r₂, r = pre ++ r₂ ∧ SubRel m y r₂ := by
  intro pre
  induction pre with
  | nil => intro y r _ h; exact ⟨r, rfl, h⟩
  | cons c rest ih =>
    intro y r hon h
    obtain ⟨h1, h2⟩ := hon
    rw [List.cons_append] at h
    cases h with
    | copy c' s' r' hnone hrel =>
      obtain ⟨r₂, hr, hrel₂⟩ := ih y r' h2 hrel
      exact ⟨r₂, by rw [hr, List.cons_append], hrel₂⟩
    | repl s' r' n hm _ =>
      rw [List.cons_append] at h1
      rw [h1] at hm
      exact Option.noConfusion hm

/-- A pass that replaced anything leaves the marker in the output. -/
theorem subRel_marker_of_match {m : List Char → Option Nat} (hok : MatcherOK m) :
    ∀ {s r : List Char}, SubRel m s r → ¬ noMatch m s →
      ∃ a b, r = a ++ redactMarker ++ b := by
  intro s r h
  induction h with
  | nil => intro hnm; exact absurd hok.nilNone hnm
  | copy c s' r' hnone hrel ih =>
    intro hnm
    have hns : ¬ noMatch m s' := fun h2 => hnm ⟨hnone, h2⟩
    obtain ⟨a, b, hab⟩ := ih hns
    exact ⟨c :: a, b, by rw [hab]; simp⟩
  | repl s' r' n hm hrel _ =>
    intro _
    exact ⟨[], r', by simp⟩

/-- Once present, the marker survives any further substitution pass. -/
theorem subRel_marker_preserved {m : List Char → Option Nat} (hok : MatcherOK m) :
    ∀ {s r : List Char}, SubRel m s r → (∃ a b, s = a ++ redactMarker ++ b) →
      ∃ a b, r = a ++ redactMarker ++ b := by
  intro s r h
  induction h with
  | nil =>
    rintro ⟨a, b, hab⟩
    exfalso
    have h1 := List.append_eq_nil.mp hab.symm
    have h2 := List.append_eq_nil.mp h1.1
    exact absurd h2.2 (by simp [redactMarker])
  | copy c s' r' hnone hrel ih =>
    rintro ⟨a, b, hab⟩
    cases a with
    | nil =>
      simp only [List.nil_append] at hab
      have hrel' : SubRel m (redactMarker ++ b) (c :: r') := by
        rw [← hab]
        exact SubRel.copy c s' r' hnone hrel
      obtain ⟨r₂, hr, _⟩ := subRel_through m redactMarker b (c :: r') (hok.immune b) hrel'
      exact ⟨[], r₂, by simpa using hr⟩
    | cons a0 a' =>
      have hab' : c :: s' = a0 :: (a' ++ (redactMarker ++ b)) := by
        rw [hab]
        simp
      injection hab' with h1 h2
      obtain ⟨a₂, b₂, hr⟩ := ih ⟨a', b, by rw [h2, ← List.append_assoc]⟩
      exact ⟨c :: a₂, b₂, by rw [hr]; simp⟩
  | repl s' r' n hm hrel _ =>
    intro _
    exact ⟨[], r', by simp⟩

/-! ## C6: facts about the AKIA matcher -/

theorem matchAKIA_shape {s : List Char} {n : Nat} (h : matchAKIA s = some n) :
    ∃ rest, s = 'A' :: 'K' :: 'I' :: 'A' :: rest ∧
      (rest.take 16).length = 16 ∧ (rest.take 16).all isUpperAlphaNum ∧ n = 20 := by
  rcases s with _ | ⟨a, _ | ⟨k, _ | ⟨i, _ | ⟨a2, rest⟩⟩⟩⟩
  · simp [matchAKIA] at h
  · simp [matchAKIA] at h
  · simp [matchAKIA] at h
  · simp [matchAKIA] at h
  · simp only [matchAKIA] at h
    split at h
    · rename_i hcond
      obtain ⟨hA, hK, hI, hA2, hlen, hall⟩ := hcond
      injection h with hn
      exact ⟨rest, by rw [hA, hK, hI, hA2], hlen, hall, hn.symm⟩
    · exact absurd h (by simp)

theorem matchAKIA_of_shape (rest : List Char) (hlen : (rest.take 16).length = 16)
    (hall : (rest.take 16).all isUpperAlphaNum) :
    matchAKIA ('A' :: 'K' :: 'I' :: 'A' :: rest) = some 20 := by
  rw [show matchAKIA ('A' :: 'K' :: 'I' :: 'A' :: rest)
        = (if 'A' = 'A' ∧ 'K' = 'K' ∧ 'I' = 'I' ∧ 'A' = 'A' ∧
             (rest.take 16).length = 16 ∧ (rest.take 16).all isUpperAlphaNum
           then some 20 else none) from rfl]
  rw [if_pos ⟨rfl, rfl, rfl, rfl, hlen, hall⟩]

theorem matchAKIA_head_ne {c : Char} (hc : c ≠ 'A') :
    ∀ l : List Char, matchAKIA (c :: l) = none := by
  intro l
  rcases l with _ | ⟨k, _ | ⟨i, _ | ⟨a2, rest⟩⟩⟩
  · rfl
  · rfl
  · rfl
  · simp only [matchAKIA]
    rw [if_neg]
    rintro ⟨h1, -⟩
    exact hc h1

theorem matchAKIA_two_ne {c k : Char} (hk : k ≠ 'K') :
    ∀ l : List Char, matchAKIA (c :: k :: l) = none := by
  intro l
  rcases l with _ | ⟨i, _ | ⟨a2, rest⟩⟩
  · rfl
  · rfl
  · simp only [matchAKIA]
    rw [if_neg]
    rintro ⟨-, h2, -⟩
    exact hk h2

theorem immuneAKIA (y : List Char) : noMatchOn matchAKIA redactMarker y := by
  refine ⟨?_, ?_, ?_, ?_, ?_, ?_, ?_, ?_, ?_, ?_, trivial⟩
  · exact matchAKIA_head_ne (by decide) _
  · exact matchAKIA_head_ne (by decide) _
  · exact matchAKIA_head_ne (by decide) _
  · exact matchAKIA_head_ne (by decide) _
  · exact matchAKIA_two_ne (by decide) _
  · exact matchAKIA_head_ne (by decide) _
  · exact matchAKIA_head_ne (by decide) _
  · exact matchAKIA_head_ne (by decide) _
  · exact matchAKIA_head_ne (by decide) _
  · exact matchAKIA_head_ne (by decide) _

theorem transferAKIA : ∀ (p y : List Char) (c : Char) (z : List Char),
    isSpaceChar c = false → matchAKIA (p ++ redactMarker ++ y) ≠ none →
    matchAKIA (p ++ c :: z) ≠ none := by
  intro p y c z _ hne
  obtain ⟨n, hn⟩ := Option.ne_none_iff_exists'.mp hne
  obtain ⟨rest, hshape, hlen, hall, _⟩ := matchAKIA_shape hn
  rcases p with _ | ⟨p1, _ | ⟨p2, _ | ⟨p3, _ | ⟨p4, p'⟩⟩⟩⟩
  · injection hshape with h1 _
    exact absurd h1 (by decide)
  · injection hshape with _ hr
    injection hr with h2 _
    exact absurd h2 (by decide)
  · injection hshape with _ hr
    injection hr with _ hr2
    injection hr2 with h3 _
    exact absurd h3 (by decide)
  · injection hshape with _ hr
    injection hr with _ hr2
    injection hr2 with _ hr3
    injection hr3 with h4 _
    exact absurd h4 (by decide)
  · injection hshape with h1 hr
    injection hr with h2 hr2
    injection hr2 with h3 hr3
    injection hr3 with h4 hr4
    subst h1; subst h2; subst h3; subst h4
    have hrest : rest = p' ++ (redactMarker ++ y) := by
      simp only [List.append_eq] at hr4
      rw [← hr4, List.append_assoc]
    by_cases h16 : 16 ≤ p'.length
    · have htake : rest.take 16 = p'.take 16 := by
        rw [hrest, List.take_append_eq_append_take,
          show 16 - p'.length = 0 from by omega, List.take_zero, List.append_nil]
      have htake2 : (p' ++ c :: z).take 16 = p'.take 16 := by
        rw [List.take_append_eq_append_take,
          show 16 - p'.length = 0 from by omega, List.take_zero, List.append_nil]
      intro hcc
      have hsome := matchAKIA_of_shape (p' ++ c :: z)
        (by rw [htake2, ← htake]; exact hlen)
        (by rw [htake2, ← htake]; exact hall)
      rw [show ('A' :: 'K' :: 'I' :: 'A' :: p') ++ c :: z
            = 'A' :: 'K' :: 'I' :: 'A' :: (p' ++ c :: z) from rfl] at hcc
      rw [hsome] at hcc
      exact Option.noConfusion hcc
    · exfalso
      have htk : rest.take 16 = p' ++ (redactMarker ++ y).take (16 - p'.length) := by
        rw [hrest, List.take_append_eq_append_take,
          List.take_of_length_le (by omega : p'.length ≤ 16)]
      obtain ⟨k, hk⟩ : ∃ k, 16 - p'.length = k + 1 := ⟨15 - p'.length, by omega⟩
      have hkmem : '[' ∈ (redactMarker ++ y).take (16 - p'.length) := by
        rw [hk, show redactMarker ++ y = '[' :: ("REDACTED]".data ++ y) from rfl,
          List.take_succ_cons]
        exact List.mem_cons_self _ _
      have hin : '[' ∈ rest.take 16 := by
        rw [htk]
        exact List.mem_append_right _ hkmem
      have hup := List.all_eq_true.mp hall '[' hin
      exact absurd hup (by decide)

/-! ## C6: facts about the xox matcher -/

theorem spanLen_head_true (f : Char → Bool) {c : Char} (l : List Char)
    (h : f c = true) : spanLen f (c :: l) = spanLen f l + 1 := by
  rw [spanLen]
  simp [h]

theorem matchXox_shape {s : List Char} {n : Nat} (h : matchXox s = some n) :
    ∃ k rest, s = 'x' :: 'o' :: 'x' :: k :: '-' :: rest ∧
      (k = 'p' ∨ k = 'b' ∨ k = 'a' ∨ k = 'r') ∧ 1 ≤ spanLen isXoxBody rest ∧
      n = 5 + spanLen isXoxBody rest := by
  rcases s with _ | ⟨x1, _ | ⟨o, _ | ⟨x2, _ | ⟨k, _ | ⟨d, rest⟩⟩⟩⟩⟩
  · simp [matchXox] at h
  · simp [matchXox] at h
  · simp [matchXox] at h
  · simp [matchXox] at h
  · simp [matchXox] at h
  · simp only [matchXox] at h
    split at h
    · rename_i hcond
      obtain ⟨h1, h2, h3, hk, h5, hs⟩ := hcond
      injection h with hn
      exact ⟨k, rest, by rw [h1, h2, h3, h5], hk, hs, hn.symm⟩
    · exact absurd h (by simp)

theorem matchXox_of_shape (k : Char) (rest : List Char)
    (hk : k = 'p' ∨ k = 'b' ∨ k = 'a' ∨ k = 'r')
    (hs : 1 ≤ spanLen isXoxBody rest) :
    matchXox ('x' :: 'o' :: 'x' :: k :: '-' :: rest) = some (5 + spanLen isXoxBody rest) := by
  rw [show matchXox ('x' :: 'o' :: 'x' :: k :: '-' :: rest)
        = (if 'x' = 'x' ∧ 'o' = 'o' ∧ 'x' = 'x' ∧ (k = 'p' ∨ k = 'b' ∨ k = 'a' ∨ k = 'r') ∧
             '-' = '-' ∧ 1 ≤ spanLen isXoxBody rest
           then some (5 + spanLen isXoxBody rest) else none) from rfl]
  rw [if_pos ⟨rfl, rfl, rfl, hk, rfl, hs⟩]

theorem matchXox_head_ne {c : Char} (hc : c ≠ 'x') :
    ∀ l : List Char, matchXox (c :: l) = none := by
  intro l
  rcases l with _ | ⟨o, _ | ⟨x2, _ | ⟨k, _ | ⟨d, rest⟩⟩⟩⟩
  · rfl
  · rfl
  · rfl
  · rfl
  · simp only [matchXox]
    rw [if_neg]
    rintro ⟨h1, -⟩
    exact hc h1

theorem immuneXox (y : List Char) : noMatchOn matchXox redactMarker y := by
  refine ⟨?_, ?_, ?_, ?_, ?_, ?_, ?_, ?_, ?_, ?_, trivial⟩ <;>
    exact matchXox_head_ne (by decide) _

theorem transferXox : ∀ (p y : List Char) (c : Char) (z : List Char),
    isSpaceChar c = false → matchXox (p ++ redactMarker ++ y) ≠ none →
    matchXox (p ++ c :: z) ≠ none := by
  intro p y c z _ hne
  obtain ⟨n, hn⟩ := Option.ne_none_iff_exists'.mp hne
  obtain ⟨k, rest, hshape, hk, hs, _⟩ := matchXox_shape hn
  rcases p with _ | ⟨p1, _ | ⟨p2, _ | ⟨p3, _ | ⟨p4, _ | ⟨p5, p'⟩⟩⟩⟩⟩
  · injection hshape with h1 _
    exact absurd h1 (by decide)
  · injection hshape with _ hr
    injection hr with h2 _
    exact absurd h2 (by decide)
  · injection hshape with _ hr
    injection hr with _ hr2
    injection hr2 with h3 _
    exact absurd h3 (by decide)
  · injection hshape with _ hr
    injection hr with _ hr2
    injection hr2 with _ hr3
    injection hr3 with h4 _
    rw [← h4] at hk
    rcases hk with h | h | h | h <;> exact absurd h (by decide)
  · injection hshape with _ hr
    injection hr with _ hr2
    injection hr2 with _ hr3
    injection hr3 with _ hr4
    injection hr4 with h5 _
    exact absurd h5 (by decide)
  · injection hshape with h1 hr
    injection hr with h2 hr2
    injection hr2 with h3 hr3
    injection hr3 with h4 hr4
    injection hr4 with h5 hr5
    subst h1; subst h2; subst h3; subst h4; subst h5
    have hrest : rest = p' ++ (redactMarker ++ y) := by
      simp only [List.append_eq] at hr5
      rw [← hr5, List.append_assoc]
    have hstop : spanLen isXoxBody (redactMarker ++ y) = 0 := by
      rw [show redactMarker ++ y = '[' :: ("REDACTED]".data ++ y) from rfl]
      exact spanLen_head_false _ _ (by decide)
    have hsp : 1 ≤ spanLen isXoxBody p' := by
      rw [hrest, spanLen_append_stop _ _ _ hstop] at hs
      exact hs
    intro hcc
    have hsome := matchXox_of_shape p4 (p' ++ c :: z) hk
      (le_trans hsp (spanLen_le_append _ _ _))
    rw [show ('x' :: 'o' :: 'x' :: p4 :: '-' :: p') ++ c :: z
          = 'x' :: 'o' :: 'x' :: p4 :: '-' :: (p' ++ c :: z) from rfl] at hcc
    rw [hsome] at hcc
    exact Option.noConfusion hcc

/-! ## C6: facts about the Bearer matcher -/

theorem matchBearer_shape {s : List Char} {n : Nat} (h : matchBearer s = some n) :
    ∃ rest, s = 'B' :: 'e' :: 'a' :: 'r' :: 'e' :: 'r' :: rest ∧
      1 ≤ spanLen isSpaceChar rest ∧
      1 ≤ spanLen isBearerBody (rest.drop (spanLen isSpaceChar rest)) ∧
      n = 6 + spanLen isSpaceChar rest +
        spanLen isBearerBody (rest.drop (spanLen isSpaceChar rest)) := by
  rcases s with _ | ⟨b, _ | ⟨e1, _ | ⟨a, _ | ⟨r, _ | ⟨e2, _ | ⟨r2, rest⟩⟩⟩⟩⟩⟩
  · simp [matchBearer] at h
  · simp [matchBearer] at h
  · simp [matchBearer] at h
  · simp [matchBearer] at h
  · simp [matchBearer] at h
  · simp [matchBearer] at h
  · simp only [matchBearer] at h
    split at h
    · rename_i hcond
      obtain ⟨h1, h2, h3, h4, h5, h6, hw, hb⟩ := hcond
      injection h with hn
      exact ⟨rest, by rw [h1, h2, h3, h4, h5, h6], hw, hb, hn.symm⟩
    · exact absurd h (by simp)

theorem matchBearer_of_shape (rest : List Char)
    (hw : 1 ≤ spanLen isSpaceChar rest)
    (hb : 1 ≤ spanLen isBearerBody (rest.drop (spanLen isSpaceChar rest))) :
    matchBearer ('B' :: 'e' :: 'a' :: 'r' :: 'e' :: 'r' :: rest)
      = some (6 + spanLen isSpaceChar rest +
          spanLen isBearerBody (rest.drop (spanLen isSpaceChar rest))) := by
  rw [show matchBearer ('B' :: 'e' :: 'a' :: 'r' :: 'e' :: 'r' :: rest)
        = (if 'B' = 'B' ∧ 'e' = 'e' ∧ 'a' = 'a' ∧ 'r' = 'r' ∧ 'e' = 'e' ∧ 'r' = 'r' ∧
             1 ≤ spanLen isSpaceChar rest ∧
             1 ≤ spanLen isBearerBody (rest.drop (spanLen isSpaceChar rest))
           then some (6 + spanLen isSpaceChar rest +
                 spanLen isBearerBody (rest.drop (spanLen isSpaceChar rest)))
           else none) from rfl]
  rw [if_pos ⟨rfl, rfl, rfl, rfl, rfl, rfl, hw, hb⟩]

theorem matchBearer_head_ne {c : Char} (hc : c ≠ 'B') :
    ∀ l : List Char, matchBearer (c :: l) = none := by
  intro l
  rcases l with _ | ⟨e1, _ | ⟨a, _ | ⟨r, _ | ⟨e2, _ | ⟨r2, rest⟩⟩⟩⟩⟩
  · rfl
  · rfl
  · rfl
  · rfl
  · rfl
  · simp only [matchBearer]
    rw [if_neg]
    rintro ⟨h1, -⟩
    exact hc h1

theorem immuneBearer (y : List Char) : noMatchOn matchBearer redactMarker y := by
  refine ⟨?_, ?_, ?_, ?_, ?_, ?_, ?_, ?_, ?_, ?_, trivial⟩ <;>
    exact matchBearer_head_ne (by decide) _

theorem transferBearer : ∀ (p y : List Char) (c : Char) (z : List Char),
    isSpaceChar c = false → matchBearer (p ++ redactMarker ++ y) ≠ none →
    matchBearer (p ++ c :: z) ≠ none := by
  intro p y c z hcns hne
  obtain ⟨n, hn⟩ := Option.ne_none_iff_exists'.mp hne
  obtain ⟨rest, hshape, hw, hb, _⟩ := matchBearer_shape hn
  rcases p with _ | ⟨p1, _ | ⟨p2, _ | ⟨p3, _ | ⟨p4, _ | ⟨p5, _ | ⟨p6, p'⟩⟩⟩⟩⟩⟩
  · injection hshape with h1 _
    exact absurd h1 (by decide)
  · injection hshape with _ hr
    injection hr with h2 _
    exact absurd h2 (by decide)
  · injection hshape with _ hr
    injection hr with _ hr2
    injection hr2 with h3 _
    exact absurd h3 (by decide)
  · injection hshape with _ hr
    injection hr with _ hr2
    injection hr2 with _ hr3
    injection hr3 with h4 _
    exact absurd h4 (by decide)
  · injection hshape with _ hr
    injection hr with _ hr2
    injection hr2 with _ hr3
    injection hr3 with _ hr4
    injection hr4 with h5 _
    exact absurd h5 (by decide)
  · injection hshape with _ hr
    injection hr with _ hr2
    injection hr2 with _ hr3
    injection hr3 with _ hr4
    injection hr4 with _ hr5
    injection hr5 with h6 _
    exact absurd h6 (by decide)
  · injection hshape with h1 hr
    injection hr with h2 hr2
    injection hr2 with h3 hr3
    injection hr3 with h4 hr4
    injection hr4 with h5 hr5
    injection hr5 with h6 hr6
    subst h1; subst h2; subst h3; subst h4; subst h5; subst h6
    have hrest : rest = p' ++ (redactMarker ++ y) := by
      simp only [List.append_eq] at hr6
      rw [← hr6, List.append_assoc]
    have hMcons : redactMarker ++ y = '[' :: ("REDACTED]".data ++ y) := rfl
    have hstop_sp : spanLen isSpaceChar (redactMarker ++ y) = 0 := by
      rw [hMcons]
      exact spanLen_head_false _ _ (by decide)
    have hstop_bb : spanLen isBearerBody (redactMarker ++ y) = 0 := by
      rw [hMcons]
      exact spanLen_head_false _ _ (by decide)
    have hw_eq : spanLen isSpaceChar rest = spanLen isSpaceChar p' := by
      rw [hrest, spanLen_append_stop _ _ _ hstop_sp]
    have hw_le : spanLen isSpaceChar p' ≤ p'.length := spanLen_le _ _
    have hdrop : rest.drop (spanLen isSpaceChar rest)
        = p'.drop (spanLen isSpaceChar p') ++ (redactMarker ++ y) := by
      rw [hw_eq, hrest, List.drop_append_eq_append_drop,
        Nat.sub_eq_zero_of_le hw_le, List.drop_zero]
    have hb_eq : spanLen isBearerBody (rest.drop (spanLen isSpaceChar rest))
        = spanLen isBearerBody (p'.drop (spanLen isSpaceChar p')) := by
      rw [hdrop, spanLen_append_stop _ _ _ hstop_bb]
    have hw' : spanLen isSpaceChar (p' ++ c :: z) = spanLen isSpaceChar p' := by
      apply spanLen_append_stop
      exact spanLen_head_false _ _ hcns
    have hdrop' : (p' ++ c :: z).drop (spanLen isSpaceChar (p' ++ c :: z))
        = p'.drop (spanLen isSpaceChar p') ++ c :: z := by
      rw [hw', List.drop_append_eq_append_drop,
        Nat.sub_eq_zero_of_le hw_le, List.drop_zero]
    intro hcc
    have hsome := matchBearer_of_shape (p' ++ c :: z)
      (by rw [hw']; rw [hw_eq] at hw; exact hw)
      (by rw [hdrop']
          rw [hb_eq] at hb
          exact le_trans hb (spanLen_le_append _ _ _))
    rw [show ('B' :: 'e' :: 'a' :: 'r' :: 'e' :: 'r' :: p') ++ c :: z
          = 'B' :: 'e' :: 'a' :: 'r' :: 'e' :: 'r' :: (p' ++ c :: z) from rfl] at hcc
    rw [hsome] at hcc
    exact Option.noConfusion hcc

/-! ## C6: facts about the password matcher -/

theorem toLower_p_not_space {c : Char} (h : c.toLower = 'p') : isSpaceChar c = false := by
  cases hb : isSpaceChar c
  · rfl
  · exfalso
    have hcs : c = ' ' ∨ c = '\t' ∨ c = '\n' ∨ c = '\r' ∨ c = '\x0b' ∨ c = '\x0c' := by
      simpa [isSpaceChar, or_assoc] using hb
    rcases hcs with rfl | rfl | rfl | rfl | rfl | rfl <;> exact absurd h (by decide)

theorem pwTail_of (rest : List Char) (sep : Char) (t' : List Char)
    (hdrop : rest.drop (spanLen isSpaceChar rest) = sep :: t')
    (hsep : sep = ':' ∨ sep = '=')
    (hb : 1 ≤ spanLen (fun c => !(isSpaceChar c)) (t'.drop (spanLen isSpaceChar t'))) :
    ∃ nn, pwTail rest = some nn := by
  refine ⟨8 + spanLen isSpaceChar rest + 1 + spanLen isSpaceChar t' +
    spanLen (fun c => !(isSpaceChar c)) (t'.drop (spanLen isSpaceChar t')), ?_⟩
  simp only [pwTail]
  rw [hdrop]
  show (if sep = ':' ∨ sep = '=' then
      if 1 ≤ spanLen (fun c => !(isSpaceChar c)) (t'.drop (spanLen isSpaceChar t')) then
        some (8 + spanLen isSpaceChar rest + 1 + spanLen isSpaceChar t' +
          spanLen (fun c => !(isSpaceChar c)) (t'.drop (spanLen isSpaceChar t')))
      else none
    else none) = _
  rw [if_pos hsep, if_pos hb]

theorem pwTail_none_head (rest : List Char) (sep : Char) (t' : List Char)
    (hdrop : rest.drop (spanLen isSpaceChar rest) = sep :: t')
    (hsep : ¬(sep = ':' ∨ sep = '=')) :
    pwTail rest = none := by
  simp only [pwTail]
  rw [hdrop]
  show (if sep = ':' ∨ sep = '=' then
      if 1 ≤ spanLen (fun c => !(isSpaceChar c)) (t'.drop (spanLen isSpaceChar t')) then
        some (8 + spanLen isSpaceChar rest + 1 + spanLen isSpaceChar t' +
          spanLen (fun c => !(isSpaceChar c)) (t'.drop (spanLen isSpaceChar t')))
      else none
    else none) = none
  rw [if_neg hsep]

theorem pwTail_pos {rest : List Char} {n : Nat} (h : pwTail rest = some n) : 1 ≤ n := by
  simp only [pwTail] at h
  split at h
  · exact Option.noConfusion h
  · split at h
    · split at h
      · injection h with hn
        omega
      · exact Option.noConfusion h
    · exact Option.noConfusion h

theorem pwTail_transfer (t y : List Char) (c : Char) (z : List Char)
    (hc : isSpaceChar c = false)
    (h : pwTail (t ++ redactMarker ++ y) ≠ none) : pwTail (t ++ c :: z) ≠ none := by
  have hML : redactMarker ++ y = '[' :: ("REDACTED]".data ++ y) := rfl
  have hassoc : t ++ redactMarker ++ y = t ++ (redactMarker ++ y) := List.append_assoc _ _ _
  have hstop : spanLen isSpaceChar (redactMarker ++ y) = 0 := by
    rw [hML]
    exact spanLen_head_false _ _ (by decide)
  have hw_le : spanLen isSpaceChar t ≤ t.length := spanLen_le _ _
  have hw_orig : spanLen isSpaceChar (t ++ redactMarker ++ y) = spanLen isSpaceChar t := by
    rw [hassoc]
    exact spanLen_append_stop _ _ _ hstop
  have hdrop_orig : (t ++ redactMarker ++ y).drop (spanLen isSpaceChar (t ++ redactMarker ++ y))
      = t.drop (spanLen isSpaceChar t) ++ (redactMarker ++ y) := by
    rw [hw_orig, hassoc, List.drop_append_eq_append_drop,
      Nat.sub_eq_zero_of_le hw_le, List.drop_zero]
  have hw_new : spanLen isSpaceChar (t ++ c :: z) = spanLen isSpaceChar t :=
    spanLen_append_stop _ _ _ (spanLen_head_false _ _ hc)
  have hdrop_new : (t ++ c :: z).drop (spanLen isSpaceChar (t ++ c :: z))
      = t.drop (spanLen isSpaceChar t) ++ c :: z := by
    rw [hw_new, List.drop_append_eq_append_drop,
      Nat.sub_eq_zero_of_le hw_le, List.drop_zero]
  cases hdt : t.drop (spanLen isSpaceChar t) with
  | nil =>
    exfalso
    apply h
    apply pwTail_none_head _ '[' ("REDACTED]".data ++ y)
    · rw [hdrop_orig, hdt, List.nil_append, hML]
    · decide
  | cons sep t' =>
    by_cases hsep : sep = ':' ∨ sep = '='
    · have hdropn : (t ++ c :: z).drop (spanLen isSpaceChar (t ++ c :: z))
          = sep :: (t' ++ c :: z) := by
        rw [hdrop_new, hdt, List.cons_append]
      have hw2_le : spanLen isSpaceChar t' ≤ t'.length := spanLen_le _ _
      have hw2_new : spanLen isSpaceChar (t' ++ c :: z) = spanLen isSpaceChar t' :=
        spanLen_append_stop _ _ _ (spanLen_head_false _ _ hc)
      have hdrop2_new : (t' ++ c :: z).drop (spanLen isSpaceChar (t' ++ c :: z))
          = t'.drop (spanLen isSpaceChar t') ++ c :: z := by
        rw [hw2_new, List.drop_append_eq_append_drop,
          Nat.sub_eq_zero_of_le hw2_le, List.drop_zero]
      have hb_new : 1 ≤ spanLen (fun c => !(isSpaceChar c))
          ((t' ++ c :: z).drop (spanLen isSpaceChar (t' ++ c :: z))) := by
        rw [hdrop2_new]
        cases hdt2 : t'.drop (spanLen isSpaceChar t') with
        | nil =>
          rw [List.nil_append, spanLen_head_true _ _ (by rw [hc]; rfl)]
          omega
        | cons u t'' =>
          have hu : isSpaceChar u = false := spanLen_drop_head _ _ hdt2
          rw [List.cons_append, spanLen_head_true _ _ (by rw [hu]; rfl)]
          omega
      obtain ⟨nn, hnn⟩ := pwTail_of (t ++ c :: z) sep (t' ++ c :: z) hdropn hsep hb_new
      rw [hnn]
      simp
    · exfalso
      apply h
      apply pwTail_none_head _ sep (t' ++ (redactMarker ++ y))
      · rw [hdrop_orig, hdt, List.cons_append]
      · exact hsep

theorem matchPassword_shape {s : List Char} {n : Nat} (h : matchPassword s = some n) :
    ∃ c1 c2 c3 c4 c5 c6 c7 c8 rest,
      s = c1 :: c2 :: c3 :: c4 :: c5 :: c6 :: c7 :: c8 :: rest ∧
      c1.toLower = 'p' ∧ c2.toLower = 'a' ∧ c3.toLower = 's' ∧ c4.toLower = 's' ∧
      c5.toLower = 'w' ∧ c6.toLower = 'o' ∧ c7.toLower = 'r' ∧ c8.toLower = 'd' ∧
      pwTail rest = some n := by
  rcases s with _ | ⟨c1, _ | ⟨c2, _ | ⟨c3, _ | ⟨c4, _ | ⟨c5, _ | ⟨c6, _ | ⟨c7, _ | ⟨c8, rest⟩⟩⟩⟩⟩⟩⟩⟩
  · simp [matchPassword] at h
  · simp [matchPassword] at h
  · simp [matchPassword] at h
  · simp [matchPassword] at h
  · simp [matchPassword] at h
  · simp [matchPassword] at h
  · simp [matchPassword] at h
  · simp [matchPassword] at h
  · simp only [matchPassword] at h
    split at h
    · rename_i hcond
      obtain ⟨h1, h2, h3, h4, h5, h6, h7, h8⟩ := hcond
      exact ⟨c1, c2, c3, c4, c5, c6, c7, c8, rest, rfl, h1, h2, h3, h4, h5, h6, h7, h8, h⟩
    · exact absurd h (by simp)

theorem matchPassword_of_head {c1 c2 c3 c4 c5 c6 c7 c8 : Char} (rest : List Char)
    (h1 : c1.toLower = 'p') (h2 : c2.toLower = 'a') (h3 : c3.toLower = 's')
    (h4 : c4.toLower = 's') (h5 : c5.toLower = 'w') (h6 : c6.toLower = 'o')
    (h7 : c7.toLower = 'r') (h8 : c8.toLower = 'd') :
    matchPassword (c1 :: c2 :: c3 :: c4 :: c5 :: c6 :: c7 :: c8 :: rest) = pwTail rest := by
  rw [show matchPassword (c1 :: c2 :: c3 :: c4 :: c5 :: c6 :: c7 :: c8 :: rest)
        = (if c1.toLower = 'p' ∧ c2.toLower = 'a' ∧ c3.toLower = 's' ∧ c4.toLower = 's' ∧
             c5.toLower = 'w' ∧ c6.toLower = 'o' ∧ c7.toLower = 'r' ∧ c8.toLower = 'd'
           then pwTail rest else none) from rfl]
  rw [if_pos ⟨h1, h2, h3, h4, h5, h6, h7, h8⟩]

theorem matchPassword_head_ne {c : Char} (hc : c.toLower ≠ 'p') :
    ∀ l : List Char, matchPassword (c :: l) = none := by
  intro l
  rcases l with _ | ⟨c2, _ | ⟨c3, _ | ⟨c4, _ | ⟨c5, _ | ⟨c6, _ | ⟨c7, _ | ⟨c8, rest⟩⟩⟩⟩⟩⟩⟩
  · rfl
  · rfl
  · rfl
  · rfl
  · rfl
  · rfl
  · rfl
  · simp only [matchPassword]
    rw [if_neg]
    rintro ⟨h1, -⟩
    exact hc h1

theorem immunePassword (y : List Char) : noMatchOn matchPassword redactMarker y := by
  refine ⟨?_, ?_, ?_, ?_, ?_, ?_, ?_, ?_, ?_, ?_, trivial⟩ <;>
    exact matchPassword_head_ne (by decide) _

theorem transferPassword : ∀ (p y : List Char) (c : Char) (z : List Char),
    isSpaceChar c = false → matchPassword (p ++ redactMarker ++ y) ≠ none →
    matchPassword (p ++ c :: z) ≠ none := by
  intro p y c z hcns hne
  obtain ⟨n, hn⟩ := Option.ne_none_iff_exists'.mp hne
  obtain ⟨c1, c2, c3, c4, c5, c6, c7, c8, rest, hshape,
    hl1, hl2, hl3, hl4, hl5, hl6, hl7, hl8, hpw⟩ := matchPassword_shape hn
  rcases p with _ | ⟨p1, _ | ⟨p2, _ | ⟨p3, _ | ⟨p4, _ | ⟨p5, _ | ⟨p6, _ | ⟨p7, _ | ⟨p8, p'⟩⟩⟩⟩⟩⟩⟩⟩
  · injection hshape with h1 _
    rw [← h1] at hl1
    exact absurd hl1 (by decide)
  · injection hshape with _ hr
    injection hr with h2 _
    rw [← h2] at hl2
    exact absurd hl2 (by decide)
  · injection hshape with _ hr
    injection hr with _ hr2
    injection hr2 with h3 _
    rw [← h3] at hl3
    exact absurd hl3 (by decide)
  · injection hshape with _ hr
    injection hr with _ hr2
    injection hr2 with _ hr3
    injection hr3 with h4 _
    rw [← h4] at hl4
    exact absurd hl4 (by decide)
  · injection hshape with _ hr
    injection hr with _ hr2
    injection hr2 with _ hr3
    injection hr3 with _ hr4
    injection hr4 with h5 _
    rw [← h5] at hl5
    exact absurd hl5 (by decide)
  · injection hshape with _ hr
    injection hr with _ hr2
    injection hr2 with _ hr3
    injection hr3 with _ hr4
    injection hr4 with _ hr5
    injection hr5 with h6 _
    rw [← h6] at hl6
    exact absurd hl6 (by decide)
  · injection hshape with _ hr
    injection hr with _ hr2
    injection hr2 with _ hr3
    injection hr3 with _ hr4
    injection hr4 with _ hr5
    injection hr5 with _ hr6
    injection hr6 with h7 _
    rw [← h7] at hl7
    exact absurd hl7 (by decide)
  · injection hshape with _ hr
    injection hr with _ hr2
    injection hr2 with _ hr3
    injection hr3 with _ hr4
    injection hr4 with _ hr5
    injection hr5 with _ hr6
    injection hr6 with _ hr7
    injection hr7 with h8 _
    rw [← h8] at hl8
    exact absurd hl8 (by decide)
  · injection hshape with h1 hr
    injection hr with h2 hr2
    injection hr2 with h3 hr3
    injection hr3 with h4 hr4
    injection hr4 with h5 hr5
    injection hr5 with h6 hr6
    injection hr6 with h7 hr7
    injection hr7 with h8 hr8
    subst h1; subst h2; subst h3; subst h4; subst h5; subst h6; subst h7; subst h8
    have hrest : rest = p' ++ redactMarker ++ y := by
      simp only [List.append_eq] at hr8
      rw [← hr8]
    intro hcc
    rw [show (p1 :: p2 :: p3 :: p4 :: p5 :: p6 :: p7 :: p8 :: p') ++ c :: z
          = p1 :: p2 :: p3 :: p4 :: p5 :: p6 :: p7 :: p8 :: (p' ++ c :: z) from rfl,
      matchPassword_of_head _ hl1 hl2 hl3 hl4 hl5 hl6 hl7 hl8] at hcc
    have hpw' : pwTail (p' ++ redactMarker ++ y) ≠ none := by
      rw [← hrest, hpw]
      simp
    exact pwTail_transfer p' y c z hcns hpw' hcc

/-! ## C6: redaction idempotence -/

theorem matchAKIA_ok : MatcherOK matchAKIA := by
  refine ⟨rfl, ?_, ?_, immuneAKIA, transferAKIA⟩
  · intro s n h
    obtain ⟨rest, _, _, _, hn⟩ := matchAKIA_shape h
    omega
  · intro s n h
    obtain ⟨rest, hs, _, _, _⟩ := matchAKIA_shape h
    exact ⟨'A', _, hs, by decide⟩

theorem matchXox_ok : MatcherOK matchXox := by
  refine ⟨rfl, ?_, ?_, immuneXox, transferXox⟩
  · intro s n h
    obtain ⟨k, rest, _, _, _, hn⟩ := matchXox_shape h
    omega
  · intro s n h
    obtain ⟨k, rest, hs, _, _, _⟩ := matchXox_shape h
    exact ⟨'x', _, hs, by decide⟩

theorem matchBearer_ok : MatcherOK matchBearer := by
  refine ⟨rfl, ?_, ?_, immuneBearer, transferBearer⟩
  · intro s n h
    obtain ⟨rest, _, _, _, hn⟩ := matchBearer_shape h
    omega
  · intro s n h
    obtain ⟨rest, hs, _, _, _⟩ := matchBearer_shape h
    exact ⟨'B', _, hs, by decide⟩

theorem matchPassword_ok : MatcherOK matchPassword := by
  refine ⟨rfl, ?_, ?_, immunePassword, transferPassword⟩
  · intro s n h
    obtain ⟨c1, c2, c3, c4, c5, c6, c7, c8, rest, _, _, _, _, _, _, _, _, _, hpw⟩ :=
      matchPassword_shape h
    exact pwTail_pos hpw
  · intro s n h
    obtain ⟨c1, c2, c3, c4, c5, c6, c7, c8, rest, hs, hl1, _⟩ := matchPassword_shape h
    exact ⟨c1, _, hs, toLower_p_not_space hl1⟩

/-- After a full redaction pass, no position of the text matches any of the
four sensitive patterns. -/
theorem redactL_noMatch (s : List Char) :
    noMatch matchAKIA (redactL s) ∧ noMatch matchXox (redactL s) ∧
    noMatch matchBearer (redactL s) ∧ noMatch matchPassword (redactL s) := by
  have r1 : SubRel matchAKIA s (subst matchAKIA s) :=
    subst_subRel _ matchAKIA_ok.pos s
  have r2 : SubRel matchXox (subst matchAKIA s) (subst matchXox (subst matchAKIA s)) :=
    subst_subRel _ matchXox_ok.pos _
  have r3 : SubRel matchBearer (subst matchXox (subst matchAKIA s))
      (subst matchBearer (subst matchXox (subst matchAKIA s))) :=
    subst_subRel _ matchBearer_ok.pos _
  have r4 : SubRel matchPassword (subst matchBearer (subst matchXox (subst matchAKIA s)))
      (redactL s) :=
    subst_subRel _ matchPassword_ok.pos _
  have hA1 := subRel_self_noMatch matchAKIA_ok r1
  have hA2 := subRel_cross_noMatch matchAKIA_ok matchXox_ok r2 hA1
  have hA3 := subRel_cross_noMatch matchAKIA_ok matchBearer_ok r3 hA2
  have hA4 := subRel_cross_noMatch matchAKIA_ok matchPassword_ok r4 hA3
  have hX2 := subRel_self_noMatch matchXox_ok r2
  have hX3 := subRel_cross_noMatch matchXox_ok matchBearer_ok r3 hX2
  have hX4 := subRel_cross_noMatch matchXox_ok matchPassword_ok r4 hX3
  have hB3 := subRel_self_noMatch matchBearer_ok r3
  have hB4 := subRel_cross_noMatch matchBearer_ok matchPassword_ok r4 hB3
  have hP4 := subRel_self_noMatch matchPassword_ok r4
  exact ⟨hA4, hX4, hB4, hP4⟩

theorem redactL_idem (s : List Char) : redactL (redactL s) = redactL s := by
  obtain ⟨hA, hX, hB, hP⟩ := redactL_noMatch s
  calc redactL (redactL s)
      = subst matchPassword (subst matchBearer (subst matchXox
          (subst matchAKIA (redactL s)))) := rfl
    _ = subst matchPassword (subst matchBearer (subst matchXox (redactL s))) := by
        rw [subst_id _ hA]
    _ = subst matchPassword (subst matchBearer (redactL s)) := by
        rw [subst_id _ hX]
    _ = subst matchPassword (redactL s) := by
        rw [subst_id _ hB]
    _ = redactL s := subst_id _ hP

/-- C6: `redact` is idempotent — running the redaction step twice on the same
text yields the same result as running it once; in particular the marker text
is not itself matched by any of the patterns. -/
theorem C6_redact_idempotent (t : String) : redact (redact t) = redact t := by
  show String.mk (redactL (redactL t.data)) = String.mk (redactL t.data)
  exact congrArg String.mk (redactL_idem t.data)

/-! ## C5: guard's redaction pass -/

theorem redact_data (s : String) : (redact s).data = redactL s.data := rfl

theorem guard_reds (chosen : Candidate) (ranked : List Candidate)
    (sc : Option (String → ℚ)) :
    (guard chosen ranked sc).2.1 = redactionList ranked := by
  rw [guard]
  split <;> rfl

theorem guard_chosen_eq (chosen : Candidate) (ranked : List Candidate)
    (sc : Option (String → ℚ)) :
    (guard chosen ranked sc).1 = redactCand chosen := by
  rw [guard]
  split <;> rfl

/-- Membership in the redaction list is exactly "the snippet changed"
(distinct doc ids). -/
theorem redactionList_mem {ranked : List Candidate}
    (hnd : (ranked.map (fun c => c.doc_id)).Nodup) {c : Candidate} (hc : c ∈ ranked) :
    c.doc_id ∈ redactionList ranked ↔ redact c.snippet ≠ c.snippet := by
  unfold redactionList
  constructor
  · intro hmem
    obtain ⟨d, hd, hdid⟩ := List.mem_map.mp hmem
    have hdm := List.mem_filter.mp hd
    have hdc : d = c := docId_inj hnd hdm.1 hc hdid
    subst hdc
    simpa using hdm.2
  · intro hne
    apply List.mem_map_of_mem
    rw [List.mem_filter]
    exact ⟨hc, by simpa using hne⟩

/-- The full redaction pass leaves a marker in the text whenever the text
contained an AKIA match. -/
theorem redactL_marker_of_AKIA {s : List Char} (h : ¬ noMatch matchAKIA s) :
    ∃ a b, redactL s = a ++ redactMarker ++ b := by
  have r1 : SubRel matchAKIA s (subst matchAKIA s) :=
    subst_subRel _ matchAKIA_ok.pos s
  have r2 : SubRel matchXox (subst matchAKIA s) (subst matchXox (subst matchAKIA s)) :=
    subst_subRel _ matchXox_ok.pos _
  have r3 : SubRel matchBearer (subst matchXox (subst matchAKIA s))
      (subst matchBearer (subst matchXox (subst matchAKIA s))) :=
    subst_subRel _ matchBearer_ok.pos _
  have r4 : SubRel matchPassword (subst matchBearer (subst matchXox (subst matchAKIA s)))
      (redactL s) :=
    subst_subRel _ matchPassword_ok.pos _
  have h1 := subRel_marker_of_match matchAKIA_ok r1 h
  have h2 := subRel_marker_preserved matchXox_ok r2 h1
  have h3 := subRel_marker_preserved matchBearer_ok r3 h2
  exact subRel_marker_preserved matchPassword_ok r4 h3

/-- C5: after `guard`, every candidate's snippet (and the returned winner's)
is fully redacted — no position matches any sensitive pattern; a candidate's
doc id is in the redaction list iff its snippet text changed; and a winner
whose snippet contained an AKIA-style token ends with the fixed marker in its
snippet, no AKIA-style token anywhere, and its doc id in the redaction
list. -/
theorem C5_guard_redaction (chosen : Candidate) (ranked : List Candidate)
    (sc : Option (String → ℚ))
    (hnd : (ranked.map (fun c => c.doc_id)).Nodup)
    (hcm : chosen ∈ ranked) :
    (∀ c' ∈ redactAll ranked, ∀ a b : List Char, c'.snippet.data = a ++ b →
      matchAKIA b = none ∧ matchXox b = none ∧
      matchBearer b = none ∧ matchPassword b = none) ∧
    (∀ c ∈ ranked,
      (c.doc_id ∈ (guard chosen ranked sc).2.1 ↔ redact c.snippet ≠ c.snippet)) ∧
    ((∃ a b : List Char, chosen.snippet.data = a ++ b ∧ matchAKIA b ≠ none) →
      (∃ a b : List Char,
        ((guard chosen ranked sc).1).snippet.data = a ++ redactMarker ++ b) ∧
      (∀ a b : List Char, ((guard chosen ranked sc).1).snippet.data = a ++ b →
        matchAKIA b = none) ∧
      chosen.doc_id ∈ (guard chosen ranked sc).2.1) := by
  refine ⟨?_, ?_, ?_⟩
  · intro c' hc' a b hab
    obtain ⟨d, hd, hdc⟩ := List.mem_map.mp hc'
    have hdata : c'.snippet.data = redactL d.snippet.data := by
      rw [← hdc]
      rfl
    rw [hdata] at hab
    obtain ⟨hA, hX, hB, hP⟩ := redactL_noMatch d.snippet.data
    exact ⟨(noMatch_iff_splits _ _).mp hA a b hab,
           (noMatch_iff_splits _ _).mp hX a b hab,
           (noMatch_iff_splits _ _).mp hB a b hab,
           (noMatch_iff_splits _ _).mp hP a b hab⟩
  · intro c hc
    rw [guard_reds]
    exact redactionList_mem hnd hc
  · rintro ⟨a, b, hab, hbne⟩
    have hnotA : ¬ noMatch matchAKIA chosen.snippet.data := by
      intro hnm
      exact hbne ((noMatch_iff_splits _ _).mp hnm a b hab)
    have hwdata : ((guard chosen ranked sc).1).snippet.data
        = redactL chosen.snippet.data := by
      rw [guard_chosen_eq]
      rfl
    refine ⟨?_, ?_, ?_⟩
    · obtain ⟨a', b', hmk⟩ := redactL_marker_of_AKIA hnotA
      exact ⟨a', b', by rw [hwdata, hmk]⟩
    · intro a' b' hab'
      rw [hwdata] at hab'
      exact (noMatch_iff_splits _ _).mp (redactL_noMatch chosen.snippet.data).1 a' b' hab'
    · rw [guard_reds]
      rw [redactionList_mem hnd hcm]
      intro heq
      apply hnotA
      have hdata : redactL chosen.snippet.data = chosen.snippet.data := by
        have := congrArg String.data heq
        rwa [redact_data] at this
      have := (redactL_noMatch chosen.snippet.data).1
      rwa [hdata] at this

/-- C5 witness: the theorem at a two-candidate list whose winner's snippet
carries an AKIA-style token. -/
theorem C5_witness :
    (([exSecret, exPlain].map (fun c => c.doc_id)).Nodup ∧
      exSecret ∈ [exSecret, exPlain]) ∧
    ((∀ c' ∈ redactAll [exSecret, exPlain], ∀ a b : List Char,
        c'.snippet.data = a ++ b →
        matchAKIA b = none ∧ matchXox b = none ∧
        matchBearer b = none ∧ matchPassword b = none) ∧
    (∀ c ∈ [exSecret, exPlain],
      (c.doc_id ∈ (guard exSecret [exSecret, exPlain] none).2.1 ↔
        redact c.snippet ≠ c.snippet)) ∧
    ((∃ a b : List Char, exSecret.snippet.data = a ++ b ∧ matchAKIA b ≠ none) →
      (∃ a b : List Char,
        ((guard exSecret [exSecret, exPlain] none).1).snippet.data
          = a ++ redactMarker ++ b) ∧
      (∀ a b : List Char,
        ((guard exSecret [exSecret, exPlain] none).1).snippet.data = a ++ b →
        matchAKIA b = none) ∧
      exSecret.doc_id ∈ (guard exSecret [exSecret, exPlain] none).2.1)) :=
  ⟨⟨by decide, by decide⟩,
   C5_guard_redaction exSecret [exSecret, exPlain] none (by decide) (by decide)⟩

/-- C9 witness: the amended statement applied to the one-element sentinel
output. -/
theorem C9_witness :
    rlSentinel ∈ [rlSentinel] ∧
    ((processProvider [rlSentinel]).2.rate_limited =
        (if isRLSignal [rlSentinel] then 1 else 0) ∧
      ∀ c ∈ (processProvider [rlSentinel]).1,
        ∃ i ∈ [rlSentinel], i ≠ rlSentinel ∧ yields i c) :=
  ⟨List.mem_singleton.mpr rfl, C9_rate_limit_sentinel [rlSentinel] (by decide)⟩

end OneSource
